import Mathlib

/-!
Verification development for the graph-creator repository: a weighted
undirected graph (Vertex.py, Graph.py) and Dijkstra shortest paths
(ShortestPathCalculator.py), embedded shallowly in Lean.

Modelling conventions, chosen to match the Python source:
* Vertices are identified by their integer id; `Vertex.__eq__` compares ids,
  and every membership / removal on Python lists of vertices goes through
  that equality, so adjacency lists are embedded as lists of ids.
* Python dicts are insertion-ordered association lists; `d.update({k: v})`
  replaces the value at the first occurrence of `k` (keeping its position)
  or appends, `del d[k]` drops the entry, iteration follows list order.
* `numpy.inf` distances become `Option Int` with `none` playing infinity.
* A Python exception (KeyError from `set.remove` / `dict[...]`,
  AttributeError from using `None`) is modelled by an `Option`-valued
  operation returning `none`.
* `Graph.find_vertex` keeps overwriting its local on every id match, so it
  resolves to the LAST matching vertex; `list.remove` drops the FIRST
  `==`-equal element.  Both are embedded as written.
-/

/-- One vertex of the graph, as built by `Vertex.__init__`: a value, screen
coordinates, the unique id, the insertion-ordered list of adjacent vertex
ids, and the insertion-ordered mapping from neighbor id to edge weight. -/
structure Vertex where
  value : Int
  x : Int
  y : Int
  id : Int
  adjacent : List Int
  weights : List (Int × Int)
deriving DecidableEq

/-- The fresh vertex built by the `Vertex(value, x, y, id)` constructor:
empty adjacency and empty weight mapping. -/
def mkVertex (value x y i : Int) : Vertex :=
  { value := value, x := x, y := y, id := i, adjacent := [], weights := [] }

/-- First-match lookup in an insertion-ordered association list
(Python `d[k]` on a dict represented as its item list). -/
def assocLookup {κ α : Type} [DecidableEq κ] : List (κ × α) → κ → Option α
  | [], _ => none
  | p :: rest, k => if p.1 = k then some p.2 else assocLookup rest k

/-- Python `d.update({k: a})`: replace the value at the existing key in
place, else append the new pair at the end. -/
def assocUpdate {κ α : Type} [DecidableEq κ] : List (κ × α) → κ → α → List (κ × α)
  | [], k, a => [(k, a)]
  | p :: rest, k, a => if p.1 = k then (k, a) :: rest else p :: assocUpdate rest k a

/-- Python `del d[k]`: drop the (first) entry with the given key. -/
def assocDelete {κ α : Type} [DecidableEq κ] : List (κ × α) → κ → List (κ × α)
  | [], _ => []
  | p :: rest, k => if p.1 = k then rest else p :: assocDelete rest k

/-- Replace the first vertex with the given id by its image under `f`
(helper for the last-match update below). -/
def updFirst (f : Vertex → Vertex) (i : Int) : List Vertex → List Vertex
  | [] => []
  | v :: rest => if v.id = i then f v :: rest else v :: updFirst f i rest

/-- Mutate the LAST vertex with the given id, matching the object that
`Graph.find_vertex`'s non-breaking scan resolves an id to. -/
def updLast (w : List Vertex) (i : Int) (f : Vertex → Vertex) : List Vertex :=
  (updFirst f i w.reverse).reverse

/-- `Graph.find_vertex`: scan the whole list, keeping the last id match. -/
def findW (w : List Vertex) (i : Int) : Option Vertex :=
  w.foldl (fun acc v => if v.id = i then some v else acc) none

/-- Python `list.remove` under `Vertex.__eq__`: drop the first vertex whose
id matches. -/
def eraseById : List Vertex → Int → List Vertex
  | [], _ => []
  | v :: rest, i => if v.id = i then rest else v :: eraseById rest i

/-- `Vertex.add_adjacent(other, weight)` acting on the collection holding
both endpoints: refuse when the ids coincide or the other id is already a
key of self's weight mapping, otherwise append the neighbor id and weight
entry on both sides. -/
def addAdjacentW (w : List Vertex) (i j : Int) (t : Int) : List Vertex :=
  match findW w i, findW w j with
  | some a, some b =>
    if a.id = b.id ∨ b.id ∈ a.weights.map Prod.fst then w
    else
      let w1 := updLast w i (fun v =>
        { v with adjacent := v.adjacent ++ [b.id], weights := assocUpdate v.weights b.id t })
      updLast w1 j (fun v =>
        { v with adjacent := v.adjacent ++ [a.id], weights := assocUpdate v.weights a.id t })
  | _, _ => w

/-- `Vertex.delete_adjacent(other)` on the collection holding both
endpoints.  It only acts when `is_adjacent` holds (id membership in the
adjacency list); the four `del`/`remove` calls each raise when their key or
element is missing, modelled by the `none` result. -/
def deleteAdjacentW (w : List Vertex) (i j : Int) : Option (Bool × List Vertex) :=
  match findW w i, findW w j with
  | some a, some b =>
    if b.id ∈ a.adjacent then
      if b.id ∈ a.weights.map Prod.fst then
        let w1 := updLast w i (fun v =>
          { v with weights := assocDelete v.weights b.id, adjacent := v.adjacent.erase b.id })
        match findW w1 j with
        | some b1 =>
          if a.id ∈ b1.weights.map Prod.fst then
            if a.id ∈ b1.adjacent then
              some (true, updLast w1 j (fun v =>
                { v with weights := assocDelete v.weights a.id, adjacent := v.adjacent.erase a.id }))
            else none
          else none
        | none => none
      else none
    else some (false, w)
  | _, _ => some (false, w)

/-- Add `d` to the value of the (last-match) vertex with id `i`. -/
def bumpL (w : List Vertex) (i : Int) (d : Int) : List Vertex :=
  updLast w i (fun v => { v with value := v.value + d })

/-- `Vertex.give()`: for each entry of the adjacency list in order,
decrement self's value and increment that neighbor's value. -/
def giveW (w : List Vertex) (i : Int) : List Vertex :=
  match findW w i with
  | none => w
  | some a => a.adjacent.foldl (fun acc j => bumpL (bumpL acc i (-1)) j 1) w

/-- `Vertex.take()`: for each entry of the adjacency list in order,
increment self's value and decrement that neighbor's value. -/
def takeW (w : List Vertex) (i : Int) : List Vertex :=
  match findW w i with
  | none => w
  | some a => a.adjacent.foldl (fun acc j => bumpL (bumpL acc i 1) j (-1)) w

/-- The graph: its vertex list and the derived edge-weight index mapping an
ordered id pair (in the order `create_edge` received it) to the weight. -/
structure Graph where
  vertices : List Vertex
  weights : List ((Int × Int) × Int)
deriving DecidableEq

/-- The graph built by `Graph.__init__`. -/
def graphInit : Graph := { vertices := [], weights := [] }

/-- `Graph.contains_vertex` for an id (the Vertex branch tests membership
under `Vertex.__eq__`, which is the same id test). -/
def containsVertex (g : Graph) (i : Int) : Bool :=
  g.vertices.any (fun v => v.id == i)

/-- `Graph.are_adjacent`: false when either vertex is absent, otherwise
`vertex1.is_adjacent(vertex2)` on the resolved vertices, which is
membership of the other id in the adjacency list. -/
def areAdjacent (g : Graph) (i j : Int) : Bool :=
  if containsVertex g i = false ∨ containsVertex g j = false then false
  else
    match findW g.vertices i, findW g.vertices j with
    | some a, some b => decide (b.id ∈ a.adjacent)
    | _, _ => false

/-- An argument passed to `add_vertices`: either a Vertex instance or a
value of some other runtime type. -/
inductive Arg where
  | vx (v : Vertex)
  | notVert
deriving DecidableEq

/-- Whether the argument is a Vertex instance. -/
def Arg.isVx : Arg → Bool
  | .vx _ => true
  | .notVert => false

/-- The Vertex carried by the argument, if any. -/
def Arg.toV : Arg → Option Vertex
  | .vx v => some v
  | .notVert => none

/-- The two exception kinds `add_vertices` can raise: `TypeError` for a
non-Vertex argument, `RuntimeError` for an id already in the graph. -/
inductive AddErr where
  | typeErr
  | dupErr
deriving DecidableEq

/-- The validation loop of `add_vertices`: per argument in order, first the
isinstance check, then the id comparison against every vertex already in
the graph (the batch is never compared against itself). -/
def firstAddErr (existing : List Vertex) : List Arg → Option AddErr
  | [] => none
  | Arg.notVert :: _ => some AddErr.typeErr
  | Arg.vx v :: rest =>
    if existing.any (fun u => u.id == v.id) then some AddErr.dupErr
    else firstAddErr existing rest

/-- `Graph.add_vertices(*args)`: raise the first validation error, else
extend the vertex list with all arguments in the given order. -/
def addVertices (g : Graph) (args : List Arg) : Except AddErr Graph :=
  match firstAddErr g.vertices args with
  | some e => Except.error e
  | none => Except.ok { vertices := g.vertices ++ args.filterMap Arg.toV, weights := g.weights }

/-- The purge loop of `remove_vertex`: `self.vertices[i].delete_adjacent(v)`
for every position `i`, propagating any exception. -/
def purgeAll (x : Int) : List Int → List Vertex → Option (List Vertex)
  | [], w => some w
  | p :: rest, w =>
    match deleteAdjacentW w p x with
    | none => none
    | some r => purgeAll x rest r.2

/-- `Graph.remove_vertex`: false when absent; otherwise every vertex
deletes the victim from its adjacency, the victim is removed from the
vertex list (first `==` match), and True is returned.  The derived weight
index is left untouched by the source. -/
def removeVertex (g : Graph) (x : Int) : Option (Bool × Graph) :=
  if containsVertex g x = false then some (false, g)
  else
    match purgeAll x (g.vertices.map Vertex.id) g.vertices with
    | none => none
    | some w2 => some (true, { vertices := eraseById w2 x, weights := g.weights })

/-- `Graph.create_edge(v1, v2, weight)`: false when either endpoint is
absent; otherwise call `add_adjacent` (whose failure is ignored), update
the weight index at the ordered key `(id1, id2)`, and return True. -/
def createEdge (g : Graph) (i j : Int) (t : Int) : Bool × Graph :=
  if containsVertex g i = false ∨ containsVertex g j = false then (false, g)
  else
    (true, { vertices := addAdjacentW g.vertices i j t,
             weights := assocUpdate g.weights (i, j) t })

/-- The index scan of `remove_edge`: delete the first key that contains
both ids as components; `none` when the scan falls through. -/
def delMatchingKey (i j : Int) : List ((Int × Int) × Int) → Option (List ((Int × Int) × Int))
  | [] => none
  | e :: rest =>
    if (e.1.1 = i ∨ e.1.2 = i) ∧ (e.1.1 = j ∨ e.1.2 = j) then some rest
    else
      match delMatchingKey i j rest with
      | none => none
      | some rest2 => some (e :: rest2)

/-- `Graph.remove_edge`: False when an endpoint is absent or the pair is
not adjacent; otherwise `delete_adjacent` (inner `Option` result `none`
models the function falling off the end and returning Python `None` when
no index key matches; outer `none` is a propagated exception). -/
def removeEdge (g : Graph) (i j : Int) : Option (Option Bool × Graph) :=
  if containsVertex g i = false ∨ containsVertex g j = false then some (some false, g)
  else if areAdjacent g i j = false then some (some false, g)
  else
    match deleteAdjacentW g.vertices i j with
    | none => none
    | some r =>
      match delMatchingKey i j g.weights with
      | none => some (none, { vertices := r.2, weights := g.weights })
      | some ws => some (some true, { vertices := r.2, weights := ws })

/-- The weight of the edge between two vertices as stored in the first
endpoint's per-vertex mapping (`Vertex.weight`). -/
def edgeWeight (g : Graph) (i j : Int) : Option Int :=
  match findW g.vertices i with
  | some a => assocLookup a.weights j
  | none => none

/-- Total per-vertex weight of consecutive edges along a path of ids. -/
def pathWeight (g : Graph) : List Int → Option Int
  | [] => some 0
  | [_] => some 0
  | i :: j :: rest =>
    match edgeWeight g i j, pathWeight g (j :: rest) with
    | some t, some s => some (t + s)
    | _, _ => none

/-- The working state of `ShortestPathCalculator`: visited and unvisited
id collections, the predecessor map and the distance map (`none` = numpy
infinity; a predecessor `none` is Python `None`). -/
structure SPState where
  visited : List Int
  unvisited : List Int
  prev : List (Int × Option Int)
  distances : List (Int × Option Int)
deriving DecidableEq

/-- The state after `ShortestPathCalculator.__init__` (and `__reset`). -/
def initCalc : SPState := { visited := [], unvisited := [], prev := [], distances := [] }

/-- Dictionary read for the distance / predecessor maps.  Every read the
source performs is on a key the map contains, so the missing-key case is
conflated with the `none` value. -/
def optLookup (l : List (Int × Option Int)) (k : Int) : Option Int :=
  match assocLookup l k with
  | some d => d
  | none => none

/-- Strict comparison with `none` as plus infinity, matching comparisons
against `numpy.inf` (`inf < inf` is false). -/
def ltD : Option Int → Option Int → Bool
  | some a, some b => a < b
  | some _, none => true
  | none, _ => false

/-- Add a finite weight to a possibly-infinite distance. -/
def addD : Option Int → Int → Option Int
  | some a, t => some (a + t)
  | none, _ => none

/-- The distance / predecessor initialization loop: one `update` per graph
vertex, every value `none`. -/
def initIdMap (vs : List Vertex) : List (Int × Option Int) :=
  vs.foldl (fun m v => assocUpdate m v.id none) []

/-- `__min_distance`: scan the unvisited ids, tracking the strictly
smallest distance seen; `none` (Python `None`) when every distance is
infinite. -/
def minDistance (unvisited : List Int) (dist : List (Int × Option Int)) : Option Int :=
  (unvisited.foldl
    (fun acc u => if ltD (optLookup dist u) acc.1 then (optLookup dist u, some u) else acc)
    ((none : Option Int), (none : Option Int))).2

/-- `__update_distances`: return early when nothing is unvisited, then
relax every unvisited neighbor of the current vertex in the order of its
weight mapping.  `none` models the AttributeError raised when the current
vertex failed to resolve. -/
def updateDistances (g : Graph) (cid : Int) (st : SPState) : Option SPState :=
  if st.unvisited = [] then some st
  else
    match findW g.vertices cid with
    | none => none
    | some cv =>
      some (cv.weights.foldl
        (fun s kw =>
          if kw.1 ∈ s.unvisited then
            if ltD (addD (optLookup s.distances cid) kw.2) (optLookup s.distances kw.1) then
              { s with
                distances := assocUpdate s.distances kw.1 (addD (optLookup s.distances cid) kw.2),
                prev := assocUpdate s.prev kw.1 (some cid) }
            else s
          else s)
        st)

/-- The `while len(self.unvisited) != 0` loop of `dijkstra`.  Each pass
moves the minimum-distance id from unvisited to visited and relaxes its
neighbors, stopping early at the destination.  When `__min_distance`
returns `None`, `self.unvisited.remove(None)` raises KeyError, modelled by
the `none` result.  The fuel argument is the size of the unvisited set,
which falls by exactly one per pass. -/
def dijkstraLoop (g : Graph) (dest : Int) : SPState → Nat → Option SPState
  | st, 0 => some st
  | st, n + 1 =>
    if st.unvisited = [] then some st
    else
      match minDistance st.unvisited st.distances with
      | none => none
      | some c =>
        let st1 : SPState :=
          { st with visited := st.visited ++ [c], unvisited := st.unvisited.erase c }
        if c = dest then some st1
        else
          match updateDistances g c st1 with
          | none => none
          | some st2 => dijkstraLoop g dest st2 n

/-- The reconstruction walk of `dijkstra`: follow predecessor links from
the destination, appending each id, until a `None` link.  Fuel bounds the
walk; exhausting it models a non-terminating predecessor cycle, which no
reachable run produces. -/
def walkPrev (prev : List (Int × Option Int)) : Option Int → List Int → Nat → Option (List Int)
  | none, acc, _ => some acc
  | some _, _, 0 => none
  | some c, acc, n + 1 => walkPrev prev (optLookup prev c) (acc ++ [c]) n

/-- `ShortestPathCalculator.dijkstra(graph, source, dest)` on the ids of
the two vertices.  Result `some (none, st)` is the bare `return` (Python
`None`) for an absent endpoint, with the working state untouched;
`some (some p, st)` is a returned path; `none` is a raised exception. -/
def dijkstraRun (g : Graph) (source dest : Int) (st : SPState) :
    Option (Option (List Int) × SPState) :=
  if containsVertex g source = false ∨ containsVertex g dest = false then some (none, st)
  else
    let ids := (g.vertices.map Vertex.id).dedup
    let st0 : SPState :=
      { visited := [], unvisited := ids,
        prev := initIdMap g.vertices,
        distances := assocUpdate (initIdMap g.vertices) source (some 0) }
    match dijkstraLoop g dest st0 ids.length with
    | none => none
    | some st1 =>
      match (if (optLookup st1.prev dest).isSome ∨ dest = source then
               walkPrev st1.prev (some dest) [] (st1.prev.length + 1)
             else some []) with
      | none => none
      | some p => some (some p.reverse, st1)

/-- Just the path component of a dijkstra call started on a fresh
calculator. -/
def dijkstraPath (g : Graph) (source dest : Int) : Option (Option (List Int)) :=
  (dijkstraRun g source dest initCalc).map Prod.fst

/-- The five vertices of the repository's own embedded example
(`Test.py`), inserted through `add_vertices`. -/
def testGraphBase : Graph :=
  match addVertices graphInit
      [Arg.vx (mkVertex 0 1 1 1), Arg.vx (mkVertex 0 2 2 2), Arg.vx (mkVertex 0 3 3 3),
       Arg.vx (mkVertex 0 4 4 4), Arg.vx (mkVertex 0 5 5 5)] with
  | Except.ok g => g
  | Except.error _ => graphInit

/-- The `Test.py` graph: edges (1,2,6), (1,3,300), (1,4,150), (2,3,30),
(3,5,40), (4,5,10) built through `create_edge`. -/
def testGraph : Graph :=
  let g1 := (createEdge testGraphBase 1 2 6).2
  let g2 := (createEdge g1 1 3 300).2
  let g3 := (createEdge g2 1 4 150).2
  let g4 := (createEdge g3 2 3 30).2
  let g5 := (createEdge g4 3 5 40).2
  (createEdge g5 4 5 10).2

/-- Normal form of a last-match update when ids are unique: update every
(i.e. the one) vertex carrying the id. -/
def updAll (w : List Vertex) (i : Int) (f : Vertex → Vertex) : List Vertex :=
  w.map (fun v => if v.id = i then f v else v)

/-- One endpoint's mutation in `add_adjacent`: append the neighbor id and
record the weight. -/
def aAdd (v : Vertex) (k t : Int) : Vertex :=
  { v with adjacent := v.adjacent ++ [k], weights := assocUpdate v.weights k t }

/-- Normal form of a successful `add_adjacent` between the unique vertices
with ids `i` and `j`. -/
def aScrub (w : List Vertex) (i j t : Int) : List Vertex :=
  w.map (fun v => if v.id = i then aAdd v j t else if v.id = j then aAdd v i t else v)

/-- One endpoint's mutation in `delete_adjacent`: drop the weight entry and
the adjacency entry for the other id. -/
def dRem (v : Vertex) (k : Int) : Vertex :=
  { v with weights := assocDelete v.weights k, adjacent := v.adjacent.erase k }

/-- Normal form of a successful `delete_adjacent` between the unique
vertices with ids `i` and `j`. -/
def dScrub (w : List Vertex) (i j : Int) : List Vertex :=
  w.map (fun v => if v.id = i then dRem v j else if v.id = j then dRem v i else v)

/-- The symmetry invariant of the spec: vertex A lists B as adjacent iff B
lists A, and then both record the same edge weight. -/
def SymW (w : List Vertex) : Prop :=
  ∀ a ∈ w, ∀ b ∈ w,
    (b.id ∈ a.adjacent ↔ a.id ∈ b.adjacent) ∧
    (b.id ∈ a.adjacent → assocLookup a.weights b.id = assocLookup b.weights a.id)

/-- Per-vertex well-formedness: the adjacency list is exactly the key list
of the weight mapping, has no duplicates, never contains the vertex's own
id, and only mentions ids of vertices present in the collection. -/
def VertexWF (w : List Vertex) (a : Vertex) : Prop :=
  a.adjacent = a.weights.map Prod.fst ∧
  a.adjacent.Nodup ∧
  a.id ∉ a.adjacent ∧
  ∀ j ∈ a.adjacent, ∃ b ∈ w, b.id = j

/-- The well-formedness bundle every graph built by the public operations
from constructor-fresh vertices with pairwise-distinct ids satisfies. -/
def WInv (w : List Vertex) : Prop :=
  (w.map Vertex.id).Nodup ∧ (∀ a ∈ w, VertexWF w a) ∧ SymW w

/-- The derived-index invariant of the spec: every id-pair key corresponds
to a live symmetric adjacency between two present vertices, and the stored
weight equals the per-vertex weight on both endpoints. -/
def IdxInv (g : Graph) : Prop :=
  ∀ e ∈ g.weights, ∃ a ∈ g.vertices, ∃ b ∈ g.vertices,
    a.id = e.1.1 ∧ b.id = e.1.2 ∧
    b.id ∈ a.adjacent ∧ a.id ∈ b.adjacent ∧
    assocLookup a.weights b.id = some e.2 ∧ assocLookup b.weights a.id = some e.2

/-- Two ordered id pairs denoting the same unordered pair. -/
def sameIdPair (k k2 : Int × Int) : Prop :=
  (k.1 = k2.1 ∧ k.2 = k2.2) ∨ (k.1 = k2.2 ∧ k.2 = k2.1)

/-- No two index keys denote the same unordered id pair. -/
def IdxKeysSep (g : Graph) : Prop :=
  (g.weights.map Prod.fst).Pairwise (fun k k2 => ¬ sameIdPair k k2)

/-- Graphs reachable by the public mutation operations, with `add_vertices`
batches made of constructor-fresh vertices with pairwise-distinct ids (the
amendment: the source never compares batch members against each other) and
the vertex-level edge operations invoked on graph members. -/
inductive ReachSym : Graph → Prop where
  | init : ReachSym graphInit
  | addV (g : Graph) (vs : List Vertex) (g2 : Graph) :
      ReachSym g → (∀ v ∈ vs, v.adjacent = [] ∧ v.weights = []) →
      (vs.map Vertex.id).Nodup →
      addVertices g (vs.map Arg.vx) = Except.ok g2 → ReachSym g2
  | addAdj (g : Graph) (i j t : Int) :
      ReachSym g → containsVertex g i = true → containsVertex g j = true →
      ReachSym { vertices := addAdjacentW g.vertices i j t, weights := g.weights }
  | delAdj (g : Graph) (i j : Int) (r : Bool × List Vertex) :
      ReachSym g → containsVertex g i = true → containsVertex g j = true →
      deleteAdjacentW g.vertices i j = some r →
      ReachSym { vertices := r.2, weights := g.weights }
  | createE (g : Graph) (i j t : Int) :
      ReachSym g → ReachSym (createEdge g i j t).2
  | removeE (g : Graph) (i j : Int) (r : Option Bool × Graph) :
      ReachSym g → removeEdge g i j = some r → ReachSym r.2
  | removeV (g : Graph) (x : Int) (r : Bool × Graph) :
      ReachSym g → removeVertex g x = some r → ReachSym r.2

/-- Graphs reachable by the four Graph-level operations under the
discipline that keeps the derived weight index honest: fresh distinct-id
batches, `create_edge` only on distinct not-yet-adjacent pairs, and
`remove_vertex` only on vertices with no incident edges. -/
inductive ReachIdx : Graph → Prop where
  | init : ReachIdx graphInit
  | addV (g : Graph) (vs : List Vertex) (g2 : Graph) :
      ReachIdx g → (∀ v ∈ vs, v.adjacent = [] ∧ v.weights = []) →
      (vs.map Vertex.id).Nodup →
      addVertices g (vs.map Arg.vx) = Except.ok g2 → ReachIdx g2
  | createE (g : Graph) (i j t : Int) :
      ReachIdx g → i ≠ j → areAdjacent g i j = false →
      ReachIdx (createEdge g i j t).2
  | removeE (g : Graph) (i j : Int) (r : Option Bool × Graph) :
      ReachIdx g → removeEdge g i j = some r → ReachIdx r.2
  | removeV (g : Graph) (x : Int) (r : Bool × Graph) :
      ReachIdx g → (∀ a, findW g.vertices x = some a → a.adjacent = []) →
      removeVertex g x = some r → ReachIdx r.2

/-- Whether an `add_vertices` argument collides with an id already in the
graph (the only duplicate check the source performs). -/
def argIdClash (g : Graph) : Arg → Bool
  | .vx v => g.vertices.any (fun u => u.id == v.id)
  | .notVert => false

/-- Two isolated vertices with ids 1 and 2, via `add_vertices`. -/
def gTwo : Graph :=
  match addVertices graphInit [Arg.vx (mkVertex 0 0 0 1), Arg.vx (mkVertex 0 0 0 2)] with
  | Except.ok g => g
  | Except.error _ => graphInit

/-- `gTwo` with the edge (1,2) of weight 5, via `create_edge`. -/
def gEdge : Graph := (createEdge gTwo 1 2 5).2

/-- The graph left by `remove_vertex(1)` on `gEdge`. -/
def gStale : Graph :=
  match removeVertex gEdge 1 with
  | some r => r.2
  | none => graphInit

/-- One batch carrying two vertices with the same id 1 plus a vertex 2 —
accepted by `add_vertices` because batch members are never compared with
each other. -/
def gDup : Graph :=
  match addVertices graphInit
      [Arg.vx (mkVertex 0 0 0 1), Arg.vx (mkVertex 0 0 0 1), Arg.vx (mkVertex 0 0 0 2)] with
  | Except.ok g => g
  | Except.error _ => graphInit

/-- `gDup` after `create_edge(1, 2, 5)`: the edge lands on the second id-1
vertex, leaving the first one claiming id 1 without the reverse listing. -/
def gDupEdge : Graph := (createEdge gDup 1 2 5).2

/-- Whatever `find_vertex` returns is a member of the list carrying the
requested id. -/
theorem findW_some {w : List Vertex} {i : Int} {a : Vertex}
    (h : findW w i = some a) : a ∈ w ∧ a.id = i := by
  have aux : ∀ (l : List Vertex) (acc : Option Vertex),
      l.foldl (fun acc v => if v.id = i then some v else acc) acc = some a →
      (a ∈ l ∧ a.id = i) ∨ acc = some a := by
    intro l
    induction l with
    | nil => intro acc h2; exact Or.inr h2
    | cons v rest ih =>
      intro acc h2
      rcases ih _ h2 with h3 | h3
      · exact Or.inl ⟨List.mem_cons_of_mem _ h3.1, h3.2⟩
      · have h4 : (if v.id = i then some v else acc) = some a := h3
        by_cases hv : v.id = i
        · rw [if_pos hv] at h4
          cases h4
          exact Or.inl ⟨List.mem_cons_self _ _, hv⟩
        · rw [if_neg hv] at h4
          exact Or.inr h4
  rcases aux w none h with h2 | h2
  · exact h2
  · cases h2

/-- `find_vertex` succeeds on any id a member carries. -/
theorem findW_isSome {w : List Vertex} {i : Int}
    (h : ∃ a ∈ w, a.id = i) : (findW w i).isSome = true := by
  have aux : ∀ (l : List Vertex) (acc : Option Vertex),
      (∃ a ∈ l, a.id = i) ∨ acc.isSome = true →
      (l.foldl (fun acc v => if v.id = i then some v else acc) acc).isSome = true := by
    intro l
    induction l with
    | nil =>
      intro acc h2
      rcases h2 with ⟨a, ha, _⟩ | h2
      · cases ha
      · exact h2
    | cons v rest ih =>
      intro acc h2
      apply ih
      rcases h2 with ⟨a, ha, hid⟩ | h2
      · rcases List.mem_cons.mp ha with rfl | ha2
        · right
          show (if a.id = i then some a else acc).isSome = true
          rw [if_pos hid]
          rfl
        · exact Or.inl ⟨a, ha2, hid⟩
      · right
        show (if v.id = i then some v else acc).isSome = true
        by_cases hv : v.id = i
        · rw [if_pos hv]; rfl
        · rw [if_neg hv]; exact h2
  exact aux w none (Or.inl h)

/-- On a list whose members all miss the id, the `find_vertex` scan keeps
its accumulator. -/
theorem findW_go_skip {i : Int} (l : List Vertex) (acc : Option Vertex)
    (h : ∀ b ∈ l, b.id ≠ i) :
    l.foldl (fun acc v => if v.id = i then some v else acc) acc = acc := by
  induction l generalizing acc with
  | nil => rfl
  | cons v rest ih =>
    have hv : v.id ≠ i := h v (List.mem_cons_self _ _)
    show List.foldl _ (if v.id = i then some v else acc) rest = acc
    rw [if_neg hv]
    exact ih acc (fun b hb => h b (List.mem_cons_of_mem _ hb))

/-- With unique ids, `find_vertex` resolves an id to the member carrying
it. -/
theorem findW_nodup {w : List Vertex} {i : Int} {a : Vertex}
    (hnd : (w.map Vertex.id).Nodup) (ha : a ∈ w) (hid : a.id = i) :
    findW w i = some a := by
  induction w with
  | nil => cases ha
  | cons v rest ih =>
    rw [List.map_cons, List.nodup_cons] at hnd
    rcases List.mem_cons.mp ha with rfl | ha2
    · show List.foldl _ (if a.id = i then some a else none) rest = some a
      rw [if_pos hid]
      apply findW_go_skip
      intro b hb hbi
      apply hnd.1
      rw [hid, ← hbi]
      exact List.mem_map_of_mem Vertex.id hb
    · have hv : v.id ≠ i := by
        intro hvi
        apply hnd.1
        rw [hvi, ← hid]
        exact List.mem_map_of_mem Vertex.id ha2
      show List.foldl _ (if v.id = i then some v else none) rest = some a
      rw [if_neg hv]
      exact ih hnd.2 ha2

/-- `contains_vertex` is the existence of a member with the id. -/
theorem contains_iff (g : Graph) (i : Int) :
    containsVertex g i = true ↔ ∃ a ∈ g.vertices, a.id = i := by
  unfold containsVertex
  rw [List.any_eq_true]
  constructor
  · rintro ⟨a, ha, hid⟩
    exact ⟨a, ha, by simpa using hid⟩
  · rintro ⟨a, ha, hid⟩
    exact ⟨a, ha, by simpa using hid⟩

/-- A contained id resolves through `find_vertex` to a vertex with that
id. -/
theorem contains_findW {g : Graph} {i : Int} (h : containsVertex g i = true) :
    ∃ a, findW g.vertices i = some a ∧ a.id = i := by
  have h2 := findW_isSome ((contains_iff g i).mp h)
  rcases ho : findW g.vertices i with _ | a
  · rw [ho] at h2; cases h2
  · exact ⟨a, rfl, (findW_some ho).2⟩

/-- C1: on the repository's own five-vertex example graph (edges (1,2,6),
(1,3,300), (1,4,150), (2,3,30), (3,5,40), (4,5,10)), dijkstra from vertex
1 to vertex 5 returns the path [1, 2, 3, 5], whose total weight is 76. -/
theorem c1_dijkstra_test_path :
    dijkstraPath testGraph 1 5 = some (some [1, 2, 3, 5]) ∧
    pathWeight testGraph [1, 2, 3, 5] = some 76 :=
  ⟨rfl, rfl⟩

/-- C2 (code bug): vertices 1 and 2 are both present in the two-vertex
edgeless graph and 2 is unreachable from 1, yet the relax loop does not
terminate with an empty path: `__min_distance` returns None once every
remaining distance is infinite, and `self.unvisited.remove(None)` raises
KeyError, modelled by the `none` result. -/
theorem c2_dijkstra_unreachable_crash :
    containsVertex gTwo 1 = true ∧ containsVertex gTwo 2 = true ∧
    areAdjacent gTwo 1 2 = false ∧
    dijkstraRun gTwo 1 2 initCalc = none :=
  ⟨rfl, rfl, rfl, rfl⟩

/-- C6: when the source or the destination is absent from the graph,
dijkstra returns its no-path result (the bare Python `return`) at once and
the calculator's working state is exactly the state passed in. -/
theorem c6_dijkstra_absent_endpoint (g : Graph) (source dest : Int) (st : SPState)
    (h : containsVertex g source = false ∨ containsVertex g dest = false) :
    dijkstraRun g source dest st = some (none, st) := by
  unfold dijkstraRun
  rw [if_pos h]

/-- Witness for C6 at a concrete absent source. -/
theorem c6_witness :
    (containsVertex gTwo 7 = false ∨ containsVertex gTwo 2 = false) ∧
    dijkstraRun gTwo 7 2 initCalc = some (none, initCalc) :=
  ⟨Or.inl rfl, c6_dijkstra_absent_endpoint gTwo 7 2 initCalc (Or.inl rfl)⟩

/-- The validation loop accepts exactly the batches whose members are all
Vertex instances whose ids miss every existing member. -/
theorem firstAddErr_none_iff (g : Graph) (args : List Arg) :
    firstAddErr g.vertices args = none ↔
      args.all (fun a => a.isVx && !argIdClash g a) = true := by
  induction args with
  | nil => simp [firstAddErr]
  | cons a rest ih =>
    cases a with
    | notVert => simp [firstAddErr, Arg.isVx]
    | vx v =>
      by_cases h : g.vertices.any (fun u => u.id == v.id) = true
      · simp [firstAddErr, h, Arg.isVx, argIdClash]
      · simp only [firstAddErr, Bool.not_eq_true] at h
        simp [firstAddErr, h, Arg.isVx, argIdClash, ih]

/-- A TypeError from the validation loop pinpoints a non-Vertex
argument. -/
theorem firstAddErr_typeErr {g : Graph} {args : List Arg}
    (h : firstAddErr g.vertices args = some AddErr.typeErr) :
    ∃ a ∈ args, a.isVx = false := by
  induction args with
  | nil => cases h
  | cons a rest ih =>
    cases a with
    | notVert => exact ⟨Arg.notVert, List.mem_cons_self _ _, rfl⟩
    | vx v =>
      by_cases h2 : g.vertices.any (fun u => u.id == v.id) = true
      · rw [show firstAddErr g.vertices (Arg.vx v :: rest)
              = if g.vertices.any (fun u => u.id == v.id) then some AddErr.dupErr
                else firstAddErr g.vertices rest from rfl, if_pos h2] at h
        cases h
      · rw [show firstAddErr g.vertices (Arg.vx v :: rest)
              = if g.vertices.any (fun u => u.id == v.id) then some AddErr.dupErr
                else firstAddErr g.vertices rest from rfl,
            if_neg (by simpa using h2)] at h
        obtain ⟨a, ha, hv⟩ := ih h
        exact ⟨a, List.mem_cons_of_mem _ ha, hv⟩

/-- A RuntimeError from the validation loop pinpoints an argument whose id
is already in the graph. -/
theorem firstAddErr_dupErr {g : Graph} {args : List Arg}
    (h : firstAddErr g.vertices args = some AddErr.dupErr) :
    ∃ a ∈ args, argIdClash g a = true := by
  induction args with
  | nil => cases h
  | cons a rest ih =>
    cases a with
    | notVert => cases h
    | vx v =>
      by_cases h2 : g.vertices.any (fun u => u.id == v.id) = true
      · exact ⟨Arg.vx v, List.mem_cons_self _ _, h2⟩
      · rw [show firstAddErr g.vertices (Arg.vx v :: rest)
              = if g.vertices.any (fun u => u.id == v.id) then some AddErr.dupErr
                else firstAddErr g.vertices rest from rfl,
            if_neg (by simpa using h2)] at h
        obtain ⟨a, ha, hv⟩ := ih h
        exact ⟨a, List.mem_cons_of_mem _ ha, hv⟩

/-- C4 (amended): `add_vertices` validates every argument against the
pre-existing graph members only — the whole batch is appended in order
exactly when every argument is a Vertex whose id misses every existing
member (duplicates among the batch itself are not detected); a TypeError
comes from a non-Vertex argument and the distinct RuntimeError from an id
already in the graph, and an error leaves the graph without any partial
insert. -/
theorem c4_add_vertices_amended (g : Graph) (args : List Arg) :
    (addVertices g args
        = Except.ok { vertices := g.vertices ++ args.filterMap Arg.toV, weights := g.weights }
      ↔ args.all (fun a => a.isVx && !argIdClash g a) = true)
    ∧ (addVertices g args = Except.error AddErr.typeErr → ∃ a ∈ args, a.isVx = false)
    ∧ (addVertices g args = Except.error AddErr.dupErr → ∃ a ∈ args, argIdClash g a = true) := by
  unfold addVertices
  rcases h : firstAddErr g.vertices args with _ | e
  · refine ⟨⟨fun _ => (firstAddErr_none_iff g args).mp h, fun _ => rfl⟩, ?_, ?_⟩
    · intro h2; cases h2
    · intro h2; cases h2
  · constructor
    · constructor
      · intro h2; cases h2
      · intro h2
        rw [(firstAddErr_none_iff g args).mpr h2] at h
        cases h
    · constructor
      · intro h2
        cases h2
        exact firstAddErr_typeErr h
      · intro h2
        cases h2
        exact firstAddErr_dupErr h

/-- C4 counterexample: a batch containing two vertices with the same id 1
is accepted whole — no duplicate-id error is raised and both are appended,
because the source only compares arguments against vertices already in the
graph. -/
theorem c4_counterexample :
    addVertices graphInit [Arg.vx (mkVertex 0 0 0 1), Arg.vx (mkVertex 0 0 0 1)]
      = Except.ok { vertices := [mkVertex 0 0 0 1, mkVertex 0 0 0 1], weights := [] } :=
  rfl

/-- Witness for the amended C4 on a passing batch. -/
theorem c4_witness :
    addVertices gTwo [Arg.vx (mkVertex 0 0 0 3)]
      = Except.ok { vertices := gTwo.vertices ++ [mkVertex 0 0 0 3], weights := gTwo.weights } :=
  (c4_add_vertices_amended gTwo [Arg.vx (mkVertex 0 0 0 3)]).1.mpr (by decide)

/-- `add_adjacent` leaves the collection untouched when its duplicate-edge
guard fires. -/
theorem addAdjacentW_noop {w : List Vertex} {i j t : Int} {a b : Vertex}
    (ha : findW w i = some a) (hb : findW w j = some b)
    (h : a.id = b.id ∨ b.id ∈ a.weights.map Prod.fst) :
    addAdjacentW w i j t = w := by
  unfold addAdjacentW
  rw [ha, hb]
  exact if_pos h

/-- C10: `create_edge` on a pair of present, already-adjacent vertices
reports success and overwrites the derived weight index at the ordered key
`(i, j)` with the new weight, while the vertex list — and with it every
per-vertex adjacency and edge weight — is left exactly as it was, because
the failure of `add_adjacent` is ignored. -/
theorem c10_create_edge_adjacent (g : Graph) (i j t : Int) (a : Vertex)
    (h1 : containsVertex g i = true) (h2 : containsVertex g j = true)
    (h3 : findW g.vertices i = some a) (h4 : j ∈ a.weights.map Prod.fst) :
    createEdge g i j t
      = (true, { vertices := g.vertices, weights := assocUpdate g.weights (i, j) t }) := by
  obtain ⟨b, hb, hbid⟩ := contains_findW h2
  unfold createEdge
  rw [if_neg (by simp [h1, h2]), addAdjacentW_noop h3 hb (Or.inr (hbid.symm ▸ h4))]

/-- Witness for C10 on the concrete one-edge graph. -/
theorem c10_witness :
    createEdge gEdge 1 2 9
      = (true, { vertices := gEdge.vertices, weights := assocUpdate gEdge.weights (1, 2) 9 }) :=
  c10_create_edge_adjacent gEdge 1 2 9 _ rfl rfl rfl (by decide)

/-- Pointwise equal update functions act identically. -/
theorem updFirst_congr {f f2 : Vertex → Vertex} (h : ∀ v, f v = f2 v)
    (i : Int) (w : List Vertex) : updFirst f i w = updFirst f2 i w := by
  induction w with
  | nil => rfl
  | cons v rest ih => simp only [updFirst, h, ih]

/-- Updating with the identity changes nothing. -/
theorem updFirst_identity (i : Int) (w : List Vertex) :
    updFirst (fun v => v) i w = w := by
  induction w with
  | nil => rfl
  | cons v rest ih =>
    simp only [updFirst, ih]
    split <;> rfl

/-- Adding zero to the first id match changes nothing. -/
theorem updFirst_bump_zero (i : Int) (w : List Vertex) :
    updFirst (fun v => { v with value := v.value + 0 }) i w = w := by
  have h : ∀ v : Vertex, ({ v with value := v.value + 0 } : Vertex) = v := by
    intro v
    cases v
    simp
  rw [updFirst_congr h, updFirst_identity]

/-- Two value bumps at the same id fuse into their sum. -/
theorem updFirst_bump_add (i d e : Int) (w : List Vertex) :
    updFirst (fun v => { v with value := v.value + e }) i
      (updFirst (fun v => { v with value := v.value + d }) i w)
      = updFirst (fun v => { v with value := v.value + (d + e) }) i w := by
  induction w with
  | nil => rfl
  | cons v rest ih =>
    obtain ⟨val, vx, vy, vid, adj, wts⟩ := v
    by_cases hv : vid = i
    · subst hv
      simp [updFirst, Int.add_assoc]
    · simp [updFirst, hv, ih]

/-- Value bumps at (possibly different) ids commute. -/
theorem updFirst_bump_comm (i k d e : Int) (w : List Vertex) :
    updFirst (fun v => { v with value := v.value + e }) k
      (updFirst (fun v => { v with value := v.value + d }) i w)
      = updFirst (fun v => { v with value := v.value + d }) i
          (updFirst (fun v => { v with value := v.value + e }) k w) := by
  induction w with
  | nil => rfl
  | cons v rest ih =>
    obtain ⟨val, vx, vy, vid, adj, wts⟩ := v
    by_cases hvi : vid = i
    · subst hvi
      by_cases hvk : vid = k
      · subst hvk
        simp [updFirst, Int.add_right_comm]
      · simp [updFirst, hvk]
    · by_cases hvk : vid = k
      · subst hvk
        simp [updFirst, hvi]
      · simp [updFirst, hvi, hvk, ih]

/-- `bumpL` by zero is the identity. -/
theorem bumpL_zero (w : List Vertex) (i : Int) : bumpL w i 0 = w := by
  unfold bumpL updLast
  rw [updFirst_bump_zero, List.reverse_reverse]

/-- Consecutive `bumpL`s at one id fuse. -/
theorem bumpL_add (w : List Vertex) (i d e : Int) :
    bumpL (bumpL w i d) i e = bumpL w i (d + e) := by
  unfold bumpL updLast
  rw [List.reverse_reverse, updFirst_bump_add]

/-- `bumpL`s commute. -/
theorem bumpL_comm (w : List Vertex) (i k d e : Int) :
    bumpL (bumpL w i d) k e = bumpL (bumpL w k e) i d := by
  unfold bumpL updLast
  rw [List.reverse_reverse, List.reverse_reverse, updFirst_bump_comm]

/-- One take step undoes one give step (four bumps cancel). -/
theorem take_give_cancel (w : List Vertex) (i u : Int) :
    bumpL (bumpL (bumpL (bumpL w i (-1)) u 1) i 1) u (-1) = w := by
  rw [bumpL_comm (bumpL w i (-1)) u i 1 1, bumpL_add w i (-1) 1,
      show ((-1 : Int) + 1) = 0 from rfl, bumpL_zero, bumpL_add w u 1 (-1),
      show ((1 : Int) + -1) = 0 from rfl, bumpL_zero]

/-- A give step pushed past a take step (all bumps commute). -/
theorem give_take_step (w : List Vertex) (i u j : Int) :
    bumpL (bumpL (bumpL (bumpL w i 1) u (-1)) i (-1)) j 1
      = bumpL (bumpL (bumpL (bumpL w i (-1)) j 1) i 1) u (-1) := by
  rw [bumpL_comm (bumpL w i 1) u i (-1) (-1), bumpL_add w i 1 (-1),
      show ((1 : Int) + -1) = 0 from rfl, bumpL_zero,
      bumpL_comm (bumpL w i (-1)) j i 1 1, bumpL_add w i (-1) 1,
      show ((-1 : Int) + 1) = 0 from rfl, bumpL_zero]
  exact bumpL_comm w u j (-1) 1

/-- A take step commutes with the whole give fold. -/
theorem tstep_gfold_comm (i u : Int) (adj : List Int) (w : List Vertex) :
    adj.foldl (fun acc j => bumpL (bumpL acc i (-1)) j 1) (bumpL (bumpL w i 1) u (-1))
      = bumpL (bumpL (adj.foldl (fun acc j => bumpL (bumpL acc i (-1)) j 1) w) i 1) u (-1) := by
  induction adj generalizing w with
  | nil => rfl
  | cons j rest ih =>
    simp only [List.foldl_cons]
    rw [give_take_step]
    exact ih (bumpL (bumpL w i (-1)) j 1)

/-- The take fold over a fixed neighbor list undoes the give fold. -/
theorem give_take_fold (i : Int) (adj : List Int) (w : List Vertex) :
    adj.foldl (fun acc u => bumpL (bumpL acc i 1) u (-1))
      (adj.foldl (fun acc j => bumpL (bumpL acc i (-1)) j 1) w) = w := by
  induction adj generalizing w with
  | nil => rfl
  | cons u rest ih =>
    simp only [List.foldl_cons]
    rw [← tstep_gfold_comm i u rest (bumpL (bumpL w i (-1)) u 1), take_give_cancel]
    exact ih w

/-- An update that keeps id and adjacency keeps the id and adjacency
columns of the whole list. -/
theorem updFirst_skeleton {f : Vertex → Vertex}
    (hf : ∀ v, (f v).id = v.id ∧ (f v).adjacent = v.adjacent) (i : Int) (w : List Vertex) :
    (updFirst f i w).map Vertex.id = w.map Vertex.id ∧
    (updFirst f i w).map Vertex.adjacent = w.map Vertex.adjacent := by
  induction w with
  | nil => exact ⟨rfl, rfl⟩
  | cons v rest ih =>
    by_cases hv : v.id = i
    · simp [updFirst, hv, (hf v).1, (hf v).2]
    · simp [updFirst, hv, ih.1, ih.2]

/-- Value bumps keep the id and adjacency columns. -/
theorem bumpL_skeleton (w : List Vertex) (k d : Int) :
    (bumpL w k d).map Vertex.id = w.map Vertex.id ∧
    (bumpL w k d).map Vertex.adjacent = w.map Vertex.adjacent := by
  have h := updFirst_skeleton (f := fun v => { v with value := v.value + d })
    (fun v => ⟨rfl, rfl⟩) k w.reverse
  unfold bumpL updLast
  constructor
  · rw [List.map_reverse, h.1, List.map_reverse, List.reverse_reverse]
  · rw [List.map_reverse, h.2, List.map_reverse, List.reverse_reverse]

/-- A fold of paired value bumps keeps the id and adjacency columns. -/
theorem bump_fold_skeleton (i d1 d2 : Int) (adj : List Int) (w : List Vertex) :
    ((adj.foldl (fun acc j => bumpL (bumpL acc i d1) j d2) w).map Vertex.id
        = w.map Vertex.id) ∧
    ((adj.foldl (fun acc j => bumpL (bumpL acc i d1) j d2) w).map Vertex.adjacent
        = w.map Vertex.adjacent) := by
  induction adj generalizing w with
  | nil => exact ⟨rfl, rfl⟩
  | cons j rest ih =>
    simp only [List.foldl_cons]
    refine ⟨?_, ?_⟩
    · rw [(ih (bumpL (bumpL w i d1) j d2)).1, (bumpL_skeleton _ _ _).1,
          (bumpL_skeleton _ _ _).1]
    · rw [(ih (bumpL (bumpL w i d1) j d2)).2, (bumpL_skeleton _ _ _).2,
          (bumpL_skeleton _ _ _).2]

/-- Lists agreeing on ids and adjacency columns resolve `find_vertex` to
vertices with the same adjacency. -/
theorem findW_adj_congr {w w2 : List Vertex}
    (hid : w2.map Vertex.id = w.map Vertex.id)
    (hadj : w2.map Vertex.adjacent = w.map Vertex.adjacent) (i : Int) :
    (findW w2 i).map Vertex.adjacent = (findW w i).map Vertex.adjacent := by
  have aux : ∀ (l : List Vertex) (l2 : List Vertex) (acc acc2 : Option Vertex),
      l2.map Vertex.id = l.map Vertex.id →
      l2.map Vertex.adjacent = l.map Vertex.adjacent →
      acc2.map Vertex.adjacent = acc.map Vertex.adjacent →
      (l2.foldl (fun acc v => if v.id = i then some v else acc) acc2).map Vertex.adjacent
        = (l.foldl (fun acc v => if v.id = i then some v else acc) acc).map Vertex.adjacent := by
    intro l
    induction l with
    | nil =>
      intro l2 acc acc2 h1 _ h3
      have : l2 = [] := List.map_eq_nil_iff.mp h1
      subst this
      exact h3
    | cons v rest ih =>
      intro l2 acc acc2 h1 h2 h3
      cases l2 with
      | nil => cases h1
      | cons v2 rest2 =>
        simp only [List.map_cons, List.cons.injEq] at h1 h2
        simp only [List.foldl_cons]
        apply ih rest2 _ _ h1.2 h2.2
        show (if v2.id = i then some v2 else acc2).map Vertex.adjacent
          = (if v.id = i then some v else acc).map Vertex.adjacent
        rw [h1.1]
        by_cases hv : v.id = i
        · simp [hv, h2.1]
        · simp [hv, h3]
  exact aux w w2 none none hid hadj rfl

/-- C9: `give()` followed immediately by `take()` on the same vertex
restores the whole collection — in particular the value of the vertex and
of every one of its neighbors — to its state before the `give()` call. -/
theorem c9_give_take_inverse (w : List Vertex) (i : Int) :
    takeW (giveW w i) i = w := by
  rcases h : findW w i with _ | a
  · have hg : giveW w i = w := by
      unfold giveW
      rw [h]
    rw [hg]
    unfold takeW
    rw [h]
  · have hg : giveW w i
        = a.adjacent.foldl (fun acc j => bumpL (bumpL acc i (-1)) j 1) w := by
      unfold giveW
      rw [h]
    have hsk := bump_fold_skeleton i (-1) 1 a.adjacent w
    have hcong := findW_adj_congr hsk.1 hsk.2 i
    rw [h] at hcong
    rcases h2 : findW (a.adjacent.foldl (fun acc j => bumpL (bumpL acc i (-1)) j 1) w) i
      with _ | a2
    · rw [h2] at hcong
      cases hcong
    · rw [h2] at hcong
      have hadj : a2.adjacent = a.adjacent := Option.some.inj hcong
      have ht : takeW (a.adjacent.foldl (fun acc j => bumpL (bumpL acc i (-1)) j 1) w) i
          = a2.adjacent.foldl (fun acc u => bumpL (bumpL acc i 1) u (-1))
              (a.adjacent.foldl (fun acc j => bumpL (bumpL acc i (-1)) j 1) w) := by
        unfold takeW
        rw [h2]
      rw [hg, ht, hadj]
      exact give_take_fold i a.adjacent w

/-- Membership after a dict update: an old entry or the new pair. -/
theorem assocUpdate_mem {κ α : Type} [DecidableEq κ] {l : List (κ × α)} {k : κ} {a : α}
    {p : κ × α} (h : p ∈ assocUpdate l k a) : p ∈ l ∨ p = (k, a) := by
  induction l with
  | nil =>
    simp only [assocUpdate, List.mem_singleton] at h
    exact Or.inr h
  | cons q rest ih =>
    by_cases hq : q.1 = k
    · rw [show assocUpdate (q :: rest) k a = (k, a) :: rest from by
          simp [assocUpdate, hq]] at h
      rcases List.mem_cons.mp h with h2 | h2
      · exact Or.inr h2
      · exact Or.inl (List.mem_cons_of_mem _ h2)
    · rw [show assocUpdate (q :: rest) k a = q :: assocUpdate rest k a from by
          simp [assocUpdate, hq]] at h
      rcases List.mem_cons.mp h with h2 | h2
      · exact Or.inl (h2 ▸ List.mem_cons_self _ _)
      · rcases ih h2 with h3 | h3
        · exact Or.inl (List.mem_cons_of_mem _ h3)
        · exact Or.inr h3

/-- Looking up the freshly updated key yields the new value. -/
theorem assocLookup_update_self {κ α : Type} [DecidableEq κ] (l : List (κ × α)) (k : κ) (a : α) :
    assocLookup (assocUpdate l k a) k = some a := by
  induction l with
  | nil => simp [assocUpdate, assocLookup]
  | cons q rest ih =>
    by_cases hq : q.1 = k
    · simp [assocUpdate, hq, assocLookup]
    · simp [assocUpdate, hq, assocLookup, ih]

/-- Updating one key leaves every other lookup alone. -/
theorem assocLookup_update_ne {κ α : Type} [DecidableEq κ] (l : List (κ × α)) (k u : κ) (a : α)
    (h : u ≠ k) : assocLookup (assocUpdate l k a) u = assocLookup l u := by
  induction l with
  | nil =>
    show (if k = u then some a else none) = none
    rw [if_neg (fun h2 => h h2.symm)]
  | cons q rest ih =>
    by_cases hq : q.1 = k
    · subst hq
      have hne : ¬ q.1 = u := fun h2 => h h2.symm
      show assocLookup (if q.1 = q.1 then (q.1, a) :: rest else q :: assocUpdate rest q.1 a) u
        = assocLookup (q :: rest) u
      rw [if_pos rfl]
      show (if q.1 = u then some a else assocLookup rest u)
        = (if q.1 = u then some q.2 else assocLookup rest u)
      rw [if_neg hne, if_neg hne]
    · show assocLookup (if q.1 = k then (k, a) :: rest else q :: assocUpdate rest k a) u
        = assocLookup (q :: rest) u
      rw [if_neg hq]
      show (if q.1 = u then some q.2 else assocLookup (assocUpdate rest k a) u)
        = (if q.1 = u then some q.2 else assocLookup rest u)
      by_cases hu : q.1 = u
      · rw [if_pos hu, if_pos hu]
      · rw [if_neg hu, if_neg hu, ih]

/-- A successful lookup exhibits a stored entry. -/
theorem assocLookup_mem {κ α : Type} [DecidableEq κ] {l : List (κ × α)} {k : κ} {a : α}
    (h : assocLookup l k = some a) : (k, a) ∈ l := by
  induction l with
  | nil => cases h
  | cons q rest ih =>
    by_cases hq : q.1 = k
    · rw [show assocLookup (q :: rest) k = some q.2 from by simp [assocLookup, hq]] at h
      cases h
      rw [List.mem_cons]
      left
      rw [← hq]
    · rw [show assocLookup (q :: rest) k = assocLookup rest k from by
          simp [assocLookup, hq]] at h
      exact List.mem_cons_of_mem _ (ih h)

/-- Every value stored by the initialization loop is `none`. -/
theorem initIdMap_values (vs : List Vertex) : ∀ p ∈ initIdMap vs, p.2 = none := by
  have aux : ∀ (l : List Vertex) (m : List (Int × Option Int)),
      (∀ p ∈ m, p.2 = none) →
      ∀ p ∈ l.foldl (fun m v => assocUpdate m v.id none) m, p.2 = none := by
    intro l
    induction l with
    | nil => intro m hm p hp; exact hm p hp
    | cons v rest ih =>
      intro m hm p hp
      refine ih _ ?_ p hp
      intro q hq
      rcases assocUpdate_mem hq with h2 | h2
      · exact hm q h2
      · rw [h2]
  exact aux vs [] (by intro p hp; cases hp)

/-- Reads from the fresh distance / predecessor map all give `none`. -/
theorem optLookup_initIdMap (vs : List Vertex) (u : Int) :
    optLookup (initIdMap vs) u = none := by
  unfold optLookup
  rcases h : assocLookup (initIdMap vs) u with _ | d
  · rfl
  · exact initIdMap_values vs (u, d) (assocLookup_mem h)

/-- The initial dijkstra distance map: zero at the source, infinite
elsewhere. -/
theorem distLookup_init (vs : List Vertex) (s u : Int) :
    optLookup (assocUpdate (initIdMap vs) s (some 0)) u
      = if u = s then some 0 else none := by
  by_cases h : u = s
  · subst h
    unfold optLookup
    rw [assocLookup_update_self]
    simp
  · unfold optLookup
    rw [assocLookup_update_ne _ _ _ _ h, if_neg h]
    exact optLookup_initIdMap vs u

/-- The minimum scan never moves off a zero-distance candidate when every
other distance is infinite. -/
theorem minDist_keep {dist : List (Int × Option Int)} {s : Int}
    (hd : ∀ u, optLookup dist u = if u = s then some 0 else none) (l : List Int) :
    l.foldl (fun acc u => if ltD (optLookup dist u) acc.1 then (optLookup dist u, some u) else acc)
      ((some 0 : Option Int), (some s : Option Int)) = (some 0, some s) := by
  induction l with
  | nil => rfl
  | cons u rest ih =>
    simp only [List.foldl_cons]
    rw [show (if ltD (optLookup dist u) (some 0, (some s : Option Int)).1
          then (optLookup dist u, some u)
          else ((some 0 : Option Int), (some s : Option Int))) = (some 0, some s) from ?_]
    · exact ih
    · by_cases hu : u = s
      · rw [hd u, if_pos hu]
        rfl
      · rw [hd u, if_neg hu]
        rfl

/-- On the initial distance map, `__min_distance` picks the source as soon
as it is among the unvisited ids. -/
theorem minDist_source {dist : List (Int × Option Int)} {s : Int}
    (hd : ∀ u, optLookup dist u = if u = s then some 0 else none) (l : List Int)
    (hs : s ∈ l) : minDistance l dist = some s := by
  unfold minDistance
  have aux : ∀ (l2 : List Int), s ∈ l2 →
      l2.foldl (fun acc u => if ltD (optLookup dist u) acc.1 then (optLookup dist u, some u) else acc)
        ((none : Option Int), (none : Option Int)) = (some 0, some s) := by
    intro l2
    induction l2 with
    | nil => intro h; cases h
    | cons u rest ih =>
      intro h
      simp only [List.foldl_cons]
      by_cases hu : u = s
      · subst hu
        rw [show (if ltD (optLookup dist u) ((none : Option Int), (none : Option Int)).1
              then (optLookup dist u, some u)
              else ((none : Option Int), (none : Option Int))) = (some 0, some u) from by
            rw [hd u, if_pos rfl]; rfl]
        exact minDist_keep hd rest
      · rw [show (if ltD (optLookup dist u) ((none : Option Int), (none : Option Int)).1
              then (optLookup dist u, some u)
              else ((none : Option Int), (none : Option Int))) = (none, none) from by
            rw [hd u, if_neg hu]; rfl]
        rcases List.mem_cons.mp h with h2 | h2
        · exact absurd h2.symm hu
        · exact ih h2
  rw [aux l hs]

/-- C8: dijkstra with source equal to destination, both the same present
vertex, returns the single-element path holding just that id: the first
loop pass picks the source (distance 0 beats every infinite distance) and
the early exit fires before any relaxation. -/
theorem c8_dijkstra_source_eq_dest (g : Graph) (v : Int) (st : SPState)
    (h : containsVertex g v = true) :
    ∃ st2, dijkstraRun g v v st = some (some [v], st2) := by
  have hmem : v ∈ (g.vertices.map Vertex.id).dedup := by
    obtain ⟨a, ha, hid⟩ := (contains_iff g v).mp h
    exact List.mem_dedup.mpr (hid ▸ List.mem_map_of_mem Vertex.id ha)
  have hne : (g.vertices.map Vertex.id).dedup ≠ [] := List.ne_nil_of_mem hmem
  obtain ⟨n, hn⟩ : ∃ n, (g.vertices.map Vertex.id).dedup.length = n + 1 := by
    rcases hl : (g.vertices.map Vertex.id).dedup with _ | ⟨a, t⟩
    · exact absurd hl hne
    · exact ⟨t.length, rfl⟩
  have hd : ∀ u, optLookup (assocUpdate (initIdMap g.vertices) v (some 0)) u
      = if u = v then some 0 else none := fun u => distLookup_init g.vertices v u
  have hmin : minDistance (g.vertices.map Vertex.id).dedup
      (assocUpdate (initIdMap g.vertices) v (some 0)) = some v :=
    minDist_source hd _ hmem
  have hloop : dijkstraLoop g v
      { visited := [], unvisited := (g.vertices.map Vertex.id).dedup,
        prev := initIdMap g.vertices,
        distances := assocUpdate (initIdMap g.vertices) v (some 0) }
      ((g.vertices.map Vertex.id).dedup).length
    = some { visited := [] ++ [v],
             unvisited := ((g.vertices.map Vertex.id).dedup).erase v,
             prev := initIdMap g.vertices,
             distances := assocUpdate (initIdMap g.vertices) v (some 0) } := by
    rw [hn]
    simp only [dijkstraLoop]
    rw [if_neg hne, hmin]
    simp
  have hprev : optLookup (initIdMap g.vertices) v = none := optLookup_initIdMap g.vertices v
  have hwalk : walkPrev (initIdMap g.vertices) (some v) []
      ((initIdMap g.vertices).length + 1) = some [v] := by
    simp only [walkPrev]
    rw [hprev]
    simp only [walkPrev]
    simp
  refine ⟨{ visited := [] ++ [v], unvisited := ((g.vertices.map Vertex.id).dedup).erase v,
            prev := initIdMap g.vertices,
            distances := assocUpdate (initIdMap g.vertices) v (some 0) }, ?_⟩
  unfold dijkstraRun
  rw [if_neg (by simp [h])]
  dsimp only
  rw [hloop]
  dsimp only
  rw [if_pos (Or.inr rfl), hwalk]
  rfl

/-- Witness for C8 on a concrete graph and vertex. -/
theorem c8_witness :
    containsVertex gTwo 2 = true ∧
    ∃ st2, dijkstraRun gTwo 2 2 initCalc = some (some [2], st2) :=
  ⟨rfl, c8_dijkstra_source_eq_dest gTwo 2 initCalc rfl⟩

/-- Deleting a key erases it from the key column. -/
theorem keys_assocDelete {κ α : Type} [DecidableEq κ] (l : List (κ × α)) (k : κ) :
    (assocDelete l k).map Prod.fst = (l.map Prod.fst).erase k := by
  induction l with
  | nil => rfl
  | cons q rest ih =>
    by_cases hq : q.1 = k
    · simp [assocDelete, hq, List.erase_cons_head]
    · rw [show assocDelete (q :: rest) k = q :: assocDelete rest k from by
          simp [assocDelete, hq]]
      rw [List.map_cons, List.map_cons, List.erase_cons_tail, ih]
      simp [hq]

/-- Deleting one key leaves every other lookup alone. -/
theorem assocLookup_delete_ne {κ α : Type} [DecidableEq κ] (l : List (κ × α)) (k u : κ)
    (h : u ≠ k) : assocLookup (assocDelete l k) u = assocLookup l u := by
  induction l with
  | nil => rfl
  | cons q rest ih =>
    by_cases hq : q.1 = k
    · have hqu : ¬ q.1 = u := fun h2 => h (h2.symm.trans hq)
      rw [show assocDelete (q :: rest) k = rest from by simp [assocDelete, hq],
          show assocLookup (q :: rest) u = assocLookup rest u from by
            simp [assocLookup, hqu]]
    · rw [show assocDelete (q :: rest) k = q :: assocDelete rest k from by
          simp [assocDelete, hq]]
      show (if q.1 = u then some q.2 else assocLookup (assocDelete rest k) u)
        = (if q.1 = u then some q.2 else assocLookup rest u)
      by_cases hu : q.1 = u
      · rw [if_pos hu, if_pos hu]
      · rw [if_neg hu, if_neg hu, ih]

/-- A lookup succeeds exactly on the stored keys. -/
theorem assocLookup_isSome_iff {κ α : Type} [DecidableEq κ] (l : List (κ × α)) (k : κ) :
    (assocLookup l k).isSome = true ↔ k ∈ l.map Prod.fst := by
  induction l with
  | nil => simp [assocLookup]
  | cons q rest ih =>
    by_cases hq : q.1 = k
    · simp [assocLookup, hq]
    · rw [show assocLookup (q :: rest) k = assocLookup rest k from by simp [assocLookup, hq]]
      simp only [List.map_cons, List.mem_cons, ih]
      constructor
      · exact Or.inr
      · rintro (h2 | h2)
        · exact absurd h2.symm hq
        · exact h2

/-- Updating an absent key appends it to the key column. -/
theorem keys_assocUpdate_not_mem {κ α : Type} [DecidableEq κ] {l : List (κ × α)} {k : κ}
    (a : α) (h : k ∉ l.map Prod.fst) :
    (assocUpdate l k a).map Prod.fst = l.map Prod.fst ++ [k] := by
  induction l with
  | nil => rfl
  | cons q rest ih =>
    simp only [List.map_cons, List.mem_cons] at h
    push_neg at h
    have hqk : ¬ q.1 = k := fun h2 => h.1 h2.symm
    rw [show assocUpdate (q :: rest) k a = q :: assocUpdate rest k a from by
        simp [assocUpdate, hqk]]
    rw [List.map_cons, ih h.2, List.map_cons, List.cons_append]

/-- Updating a present key keeps the key column unchanged. -/
theorem keys_assocUpdate_mem {κ α : Type} [DecidableEq κ] {l : List (κ × α)} {k : κ}
    (a : α) (h : k ∈ l.map Prod.fst) :
    (assocUpdate l k a).map Prod.fst = l.map Prod.fst := by
  induction l with
  | nil => cases h
  | cons q rest ih =>
    by_cases hq : q.1 = k
    · rw [show assocUpdate (q :: rest) k a = (k, a) :: rest from by simp [assocUpdate, hq]]
      rw [List.map_cons, List.map_cons, hq]
    · rw [show assocUpdate (q :: rest) k a = q :: assocUpdate rest k a from by
          simp [assocUpdate, hq]]
      simp only [List.map_cons, List.mem_cons] at h
      rcases h with h2 | h2
      · exact absurd h2.symm hq
      · rw [List.map_cons, List.map_cons, ih h2]

/-- Deleting a key kills its lookup when keys are unique. -/
theorem assocLookup_delete_self {κ α : Type} [DecidableEq κ] {l : List (κ × α)} {k : κ}
    (hnd : (l.map Prod.fst).Nodup) : assocLookup (assocDelete l k) k = none := by
  induction l with
  | nil => rfl
  | cons q rest ih =>
    rw [List.map_cons, List.nodup_cons] at hnd
    by_cases hq : q.1 = k
    · rw [show assocDelete (q :: rest) k = rest from by simp [assocDelete, hq]]
      rcases h2 : assocLookup rest k with _ | d
      · rfl
      · exact absurd (hq ▸ List.mem_map_of_mem Prod.fst (assocLookup_mem h2) : q.1 ∈ _)
          (hq ▸ hnd.1)
  
    · rw [show assocDelete (q :: rest) k = q :: assocDelete rest k from by
          simp [assocDelete, hq]]
      rw [show assocLookup (q :: assocDelete rest k) k
            = assocLookup (assocDelete rest k) k from by simp [assocLookup, hq]]
      exact ih hnd.2

/-- A positional map that touches no member is the identity. -/
theorem map_ite_of_not_mem {f : Vertex → Vertex} {i : Int} {w : List Vertex}
    (h : ∀ b ∈ w, b.id ≠ i) : w.map (fun v => if v.id = i then f v else v) = w := by
  induction w with
  | nil => rfl
  | cons v rest ih =>
    rw [List.map_cons, if_neg (h v (List.mem_cons_self _ _)),
        ih (fun b hb => h b (List.mem_cons_of_mem _ hb))]

/-- With unique ids, the first-match update is the everywhere update. -/
theorem updFirst_eq_updAll {f : Vertex → Vertex} {i : Int} {w : List Vertex}
    (hnd : (w.map Vertex.id).Nodup) :
    updFirst f i w = w.map (fun v => if v.id = i then f v else v) := by
  induction w with
  | nil => rfl
  | cons v rest ih =>
    rw [List.map_cons, List.nodup_cons] at hnd
    by_cases hv : v.id = i
    · rw [show updFirst f i (v :: rest) = f v :: rest from by simp [updFirst, hv],
          List.map_cons, if_pos hv,
          map_ite_of_not_mem (fun b hb hbi =>
            hnd.1 (by rw [hv, ← hbi]; exact List.mem_map_of_mem Vertex.id hb))]
    · rw [show updFirst f i (v :: rest) = v :: updFirst f i rest from by simp [updFirst, hv],
          List.map_cons, if_neg hv, ih hnd.2]

/-- With unique ids, the last-match update is the everywhere update. -/
theorem updLast_eq_updAll {f : Vertex → Vertex} {i : Int} {w : List Vertex}
    (hnd : (w.map Vertex.id).Nodup) : updLast w i f = updAll w i f := by
  unfold updLast updAll
  rw [updFirst_eq_updAll (by rw [List.map_reverse]; exact List.nodup_reverse.mpr hnd),
      List.map_reverse, List.reverse_reverse]

/-- `find_vertex` commutes with an id-preserving map. -/
theorem findW_map (φ : Vertex → Vertex) (hφ : ∀ v, (φ v).id = v.id)
    (w : List Vertex) (k : Int) : findW (w.map φ) k = (findW w k).map φ := by
  have aux : ∀ (l : List Vertex) (acc : Option Vertex),
      (l.map φ).foldl (fun acc v => if v.id = k then some v else acc) (acc.map φ)
        = (l.foldl (fun acc v => if v.id = k then some v else acc) acc).map φ := by
    intro l
    induction l with
    | nil => intro acc; rfl
    | cons v rest ih =>
      intro acc
      rw [List.map_cons, List.foldl_cons, List.foldl_cons]
      rw [show (if (φ v).id = k then some (φ v) else acc.map φ)
            = (if v.id = k then some v else acc).map φ from by
          rw [hφ v]
          by_cases hv : v.id = k
          · rw [if_pos hv, if_pos hv]; rfl
          · rw [if_neg hv, if_neg hv]]
      exact ih _
  exact aux w none

/-- The everywhere update of an id-preserving function keeps the id
column. -/
theorem updAll_map_id (f : Vertex → Vertex) (hf : ∀ v, (f v).id = v.id)
    (i : Int) (w : List Vertex) :
    (updAll w i f).map Vertex.id = w.map Vertex.id := by
  unfold updAll
  rw [List.map_map]
  apply List.map_congr_left
  intro v _
  show (if v.id = i then f v else v).id = v.id
  by_cases hv : v.id = i
  · rw [if_pos hv, hf v]
  · rw [if_neg hv]

/-- Characterization of a successful `add_adjacent` between the distinct
resolved endpoints, under unique ids: both endpoint records gain the entry,
nothing else moves. -/
theorem addAdjacentW_char {w : List Vertex} {i j t : Int} {a b : Vertex}
    (hnd : (w.map Vertex.id).Nodup)
    (ha : findW w i = some a) (hb : findW w j = some b)
    (hne : a.id ≠ b.id) (hguard : b.id ∉ a.weights.map Prod.fst) :
    addAdjacentW w i j t = aScrub w i j t := by
  obtain ⟨-, haid⟩ := findW_some ha
  obtain ⟨-, hbid⟩ := findW_some hb
  subst haid
  subst hbid
  unfold addAdjacentW
  rw [ha, hb]
  dsimp only
  rw [if_neg (by push_neg; exact ⟨hne, hguard⟩)]
  have hnd2 : (List.map Vertex.id (updAll w a.id (fun v =>
      { v with adjacent := v.adjacent ++ [b.id],
               weights := assocUpdate v.weights b.id t }))).Nodup := by
    rw [updAll_map_id (fun v =>
      { v with adjacent := v.adjacent ++ [b.id],
               weights := assocUpdate v.weights b.id t }) (fun v => rfl)]
    exact hnd
  rw [updLast_eq_updAll hnd, updLast_eq_updAll hnd2]
  unfold updAll aScrub aAdd
  rw [List.map_map]
  apply List.map_congr_left
  intro v _
  by_cases hvi : v.id = a.id
  · have hv2 : ¬ v.id = b.id := by rw [hvi]; exact hne
    simp only [Function.comp, if_pos hvi, if_neg hv2]
  · by_cases hvj : v.id = b.id
    · simp only [Function.comp, if_neg hvi, if_pos hvj]
    · simp only [Function.comp, if_neg hvi, if_neg hvj]

/-- `delete_adjacent` is a successful no-op when an endpoint fails to
resolve. -/
theorem deleteAdjacentW_nofind {w : List Vertex} {i j : Int}
    (h : findW w i = none ∨ findW w j = none) :
    deleteAdjacentW w i j = some (false, w) := by
  unfold deleteAdjacentW
  rcases h with h | h
  · rw [h]
  · rw [h]
    rcases h2 : findW w i with _ | a <;> rfl

/-- `delete_adjacent` returns False untouched when the pair is not
adjacent. -/
theorem deleteAdjacentW_noadj {w : List Vertex} {i j : Int} {a b : Vertex}
    (ha : findW w i = some a) (hb : findW w j = some b)
    (h : b.id ∉ a.adjacent) :
    deleteAdjacentW w i j = some (false, w) := by
  unfold deleteAdjacentW
  rw [ha, hb]
  dsimp only
  rw [if_neg h]

/-- Characterization of a successful `delete_adjacent` between distinct
resolved endpoints under unique ids: the entry disappears from both
records, nothing else moves. -/
theorem deleteAdjacentW_char {w : List Vertex} {i j : Int} {a b : Vertex}
    (hnd : (w.map Vertex.id).Nodup)
    (ha : findW w i = some a) (hb : findW w j = some b) (hne : a.id ≠ b.id)
    (h1 : b.id ∈ a.adjacent) (h2 : b.id ∈ a.weights.map Prod.fst)
    (h3 : a.id ∈ b.weights.map Prod.fst) (h4 : a.id ∈ b.adjacent) :
    deleteAdjacentW w i j = some (true, dScrub w i j) := by
  obtain ⟨-, haid⟩ := findW_some ha
  obtain ⟨-, hbid⟩ := findW_some hb
  subst haid
  subst hbid
  unfold deleteAdjacentW
  rw [ha, hb]
  dsimp only
  rw [if_pos h1, if_pos h2]
  have hw1 : findW (updLast w a.id (fun v =>
      { v with weights := assocDelete v.weights b.id, adjacent := v.adjacent.erase b.id }))
      b.id = some b := by
    rw [updLast_eq_updAll hnd]
    unfold updAll
    rw [findW_map (fun v => if v.id = a.id then
          { v with weights := assocDelete v.weights b.id, adjacent := v.adjacent.erase b.id }
        else v)
        (fun v => by
          show (if v.id = a.id then
            { v with weights := assocDelete v.weights b.id,
                     adjacent := v.adjacent.erase b.id } else v).id = v.id
          by_cases hv : v.id = a.id
          · rw [if_pos hv]
          · rw [if_neg hv]),
        hb]
    show some (if b.id = a.id then _ else b) = some b
    rw [if_neg (fun hh => hne hh.symm)]
  rw [hw1]
  dsimp only
  rw [if_pos h3, if_pos h4]
  have hnd2 : (List.map Vertex.id (updAll w a.id (fun v =>
      { v with weights := assocDelete v.weights b.id,
               adjacent := v.adjacent.erase b.id }))).Nodup := by
    rw [updAll_map_id (fun v =>
      { v with weights := assocDelete v.weights b.id,
               adjacent := v.adjacent.erase b.id }) (fun v => rfl)]
    exact hnd
  rw [updLast_eq_updAll hnd, updLast_eq_updAll hnd2]
  unfold updAll dScrub dRem
  rw [List.map_map]
  refine congrArg (fun l => some (true, (l : List Vertex))) ?_
  apply List.map_congr_left
  intro v _
  by_cases hvi : v.id = a.id
  · have hv2 : ¬ v.id = b.id := by rw [hvi]; exact hne
    simp only [Function.comp, if_pos hvi, if_neg hv2]
  · by_cases hvj : v.id = b.id
    · simp only [Function.comp, if_neg hvi, if_pos hvj]
    · simp only [Function.comp, if_neg hvi, if_neg hvj]

/-- Under unique ids, two members sharing an id are the same vertex. -/
theorem mem_id_unique {w : List Vertex} (hnd : (w.map Vertex.id).Nodup)
    {a b : Vertex} (ha : a ∈ w) (hb : b ∈ w) (hid : a.id = b.id) : a = b := by
  have h1 := findW_nodup hnd ha hid
  have h2 := findW_nodup hnd hb rfl
  rw [h1] at h2
  exact Option.some.inj h2

/-- A failing `find_vertex` means the id is absent. -/
theorem findW_none {w : List Vertex} {i : Int} (h : findW w i = none) :
    i ∉ w.map Vertex.id := by
  intro hmem
  obtain ⟨a, ha, hid⟩ := List.mem_map.mp hmem
  have := findW_isSome ⟨a, ha, hid⟩
  rw [h] at this
  cases this

/-- Removing the first id match erases the id from the id column. -/
theorem map_id_eraseById (w : List Vertex) (x : Int) :
    (eraseById w x).map Vertex.id = (w.map Vertex.id).erase x := by
  induction w with
  | nil => rfl
  | cons v rest ih =>
    by_cases hv : v.id = x
    · rw [show eraseById (v :: rest) x = rest from by simp [eraseById, hv],
          List.map_cons, hv, List.erase_cons_head]
    · rw [show eraseById (v :: rest) x = v :: eraseById rest x from by simp [eraseById, hv],
          List.map_cons, List.map_cons, List.erase_cons_tail, ih]
      simp [hv]

/-- Members survive the removal if any member does with their id class. -/
theorem mem_eraseById_sub {w : List Vertex} {x : Int} {u : Vertex}
    (h : u ∈ eraseById w x) : u ∈ w := by
  induction w with
  | nil => cases h
  | cons v rest ih =>
    by_cases hv : v.id = x
    · rw [show eraseById (v :: rest) x = rest from by simp [eraseById, hv]] at h
      exact List.mem_cons_of_mem _ h
    · rw [show eraseById (v :: rest) x = v :: eraseById rest x from by
          simp [eraseById, hv]] at h
      rcases List.mem_cons.mp h with h2 | h2
      · exact h2 ▸ List.mem_cons_self _ _
      · exact List.mem_cons_of_mem _ (ih h2)

/-- Members with another id survive the removal. -/
theorem mem_eraseById_of_ne {w : List Vertex} {x : Int} {u : Vertex}
    (h : u ∈ w) (hne : u.id ≠ x) : u ∈ eraseById w x := by
  induction w with
  | nil => cases h
  | cons v rest ih =>
    by_cases hv : v.id = x
    · rw [show eraseById (v :: rest) x = rest from by simp [eraseById, hv]]
      rcases List.mem_cons.mp h with h2 | h2
      · exact absurd (h2 ▸ hv) hne
      · exact h2
    · rw [show eraseById (v :: rest) x = v :: eraseById rest x from by simp [eraseById, hv]]
      rcases List.mem_cons.mp h with h2 | h2
      · exact h2 ▸ List.mem_cons_self _ _
      · exact List.mem_cons_of_mem _ (ih h2)

/-- Wrapping a vertex batch and filtering it back is the identity. -/
theorem filterMap_toV_map_vx (vs : List Vertex) :
    (vs.map Arg.vx).filterMap Arg.toV = vs := by
  induction vs with
  | nil => rfl
  | cons v rest ih => simp [Arg.toV, ih]

/-- A successful `add_vertices` call on a vertex batch appends exactly the
batch, and every batch id was absent from the graph. -/
theorem addVertices_ok_decomp {g : Graph} {vs : List Vertex} {g2 : Graph}
    (hok : addVertices g (vs.map Arg.vx) = Except.ok g2) :
    g2 = { vertices := g.vertices ++ vs, weights := g.weights } ∧
    ∀ v ∈ vs, v.id ∉ g.vertices.map Vertex.id := by
  unfold addVertices at hok
  rcases h : firstAddErr g.vertices (vs.map Arg.vx) with _ | e
  · rw [h] at hok
    dsimp only at hok
    rw [filterMap_toV_map_vx] at hok
    have hg2 : { vertices := g.vertices ++ vs, weights := g.weights } = g2 :=
      Except.ok.inj hok
    subst hg2
    refine ⟨rfl, ?_⟩
    have hall := (firstAddErr_none_iff g (vs.map Arg.vx)).mp h
    rw [List.all_eq_true] at hall
    intro v hv hmem
    have h2 := hall (Arg.vx v) (List.mem_map_of_mem Arg.vx hv)
    rw [Bool.and_eq_true, Bool.not_eq_true'] at h2
    obtain ⟨a2, ha2, hid2⟩ := List.mem_map.mp hmem
    have hcl : argIdClash g (Arg.vx v) = true := by
      unfold argIdClash
      rw [List.any_eq_true]
      exact ⟨a2, ha2, by simpa using hid2⟩
    rw [hcl] at h2
    cases h2.2
  · rw [h] at hok
    cases hok

/-- The empty collection satisfies the well-formedness bundle. -/
theorem WInv_nil : WInv [] := by
  refine ⟨List.nodup_nil, ?_, ?_⟩
  · intro a ha
    cases ha
  · intro a ha
    cases ha

/-- Appending constructor-fresh vertices with new pairwise-distinct ids
keeps the bundle. -/
theorem WInv_append {w vs : List Vertex} (hw : WInv w)
    (hfresh : ∀ v ∈ vs, v.adjacent = [] ∧ v.weights = [])
    (hvnd : (vs.map Vertex.id).Nodup)
    (hdisj : ∀ v ∈ vs, v.id ∉ w.map Vertex.id) :
    WInv (w ++ vs) := by
  obtain ⟨hnd, hwf, hsym⟩ := hw
  have hwclosed : ∀ a ∈ w, ∀ (v : Vertex), v ∈ vs → v.id ∉ a.adjacent := by
    intro a ha v hv hmem
    obtain ⟨c, hc, hcid⟩ := (hwf a ha).2.2.2 v.id hmem
    exact hdisj v hv (hcid ▸ List.mem_map_of_mem Vertex.id hc)
  refine ⟨?_, ?_, ?_⟩
  · rw [List.map_append, List.nodup_append]
    refine ⟨hnd, hvnd, ?_⟩
    intro k hk1 hk2
    obtain ⟨v, hv, hvid⟩ := List.mem_map.mp hk2
    exact hdisj v hv (hvid ▸ hk1)
  · intro a ha
    rcases List.mem_append.mp ha with h | h
    · obtain ⟨h1, h2, h3, h4⟩ := hwf a h
      refine ⟨h1, h2, h3, ?_⟩
      intro j hj
      obtain ⟨c, hc, hcid⟩ := h4 j hj
      exact ⟨c, List.mem_append_left _ hc, hcid⟩
    · obtain ⟨he1, he2⟩ := hfresh a h
      refine ⟨?_, ?_, ?_, ?_⟩
      · rw [he1, he2]
        rfl
      · rw [he1]
        exact List.nodup_nil
      · rw [he1]
        exact List.not_mem_nil _
      · intro j hj
        rw [he1] at hj
        cases hj
  · intro a ha b hb
    rcases List.mem_append.mp ha with h1 | h1 <;> rcases List.mem_append.mp hb with h2 | h2
    · exact hsym a h1 b h2
    · have hl : b.id ∉ a.adjacent := hwclosed a h1 b h2
      have hr : a.id ∉ b.adjacent := by rw [(hfresh b h2).1]; exact List.not_mem_nil _
      exact ⟨iff_of_false hl hr, fun hmem => absurd hmem hl⟩
    · have hl : b.id ∉ a.adjacent := by rw [(hfresh a h1).1]; exact List.not_mem_nil _
      have hr : a.id ∉ b.adjacent := hwclosed b h2 a h1
      exact ⟨iff_of_false hl hr, fun hmem => absurd hmem hl⟩
    · have hl : b.id ∉ a.adjacent := by rw [(hfresh a h1).1]; exact List.not_mem_nil _
      have hr : a.id ∉ b.adjacent := by rw [(hfresh b h2).1]; exact List.not_mem_nil _
      exact ⟨iff_of_false hl hr, fun hmem => absurd hmem hl⟩

/-- The well-formedness bundle survives a successful symmetric edge
insertion between two distinct members not yet adjacent. -/
theorem WInv_aScrub {w : List Vertex} {t : Int} {a b : Vertex}
    (hw : WInv w) (hain : a ∈ w) (hbin : b ∈ w)
    (hne : a.id ≠ b.id) (hguard : b.id ∉ a.weights.map Prod.fst) :
    WInv (aScrub w a.id b.id t) := by
  obtain ⟨hnd, hwf, hsym⟩ := hw
  have hbA : b.id ∉ a.adjacent := by rw [(hwf a hain).1]; exact hguard
  have haB : a.id ∉ b.adjacent := fun hmem => hbA ((hsym a hain b hbin).1.mpr hmem)
  have haGB : a.id ∉ b.weights.map Prod.fst := by rw [← (hwf b hbin).1]; exact haB
  have hidp : ∀ v : Vertex,
      ((fun v => if v.id = a.id then aAdd v b.id t
        else if v.id = b.id then aAdd v a.id t else v) v).id = v.id := by
    intro v
    show (if v.id = a.id then aAdd v b.id t
        else if v.id = b.id then aAdd v a.id t else v).id = v.id
    by_cases h1 : v.id = a.id
    · rw [if_pos h1]
      rfl
    · rw [if_neg h1]
      by_cases h2 : v.id = b.id
      · rw [if_pos h2]
        rfl
      · rw [if_neg h2]
  have hids : (aScrub w a.id b.id t).map Vertex.id = w.map Vertex.id := by
    unfold aScrub
    rw [List.map_map]
    exact List.map_congr_left (fun v _ => hidp v)
  have hfa : (if a.id = a.id then aAdd a b.id t
      else if a.id = b.id then aAdd a a.id t else a) = aAdd a b.id t := by
    rw [if_pos rfl]
  have hfb : (if b.id = a.id then aAdd b b.id t
      else if b.id = b.id then aAdd b a.id t else b) = aAdd b a.id t := by
    rw [if_neg (fun h => hne h.symm), if_pos rfl]
  have hfo : ∀ v : Vertex, v.id ≠ a.id → v.id ≠ b.id →
      (if v.id = a.id then aAdd v b.id t
        else if v.id = b.id then aAdd v a.id t else v) = v := by
    intro v h1 h2
    rw [if_neg h1, if_neg h2]
  have hclosureNew : ∀ k : Int, (∃ c ∈ w, c.id = k) →
      ∃ c2 ∈ aScrub w a.id b.id t, c2.id = k := by
    rintro k ⟨c, hc, hck⟩
    exact ⟨_, List.mem_map_of_mem _ hc, (hidp c).trans hck⟩
  refine ⟨?_, ?_, ?_⟩
  · rw [hids]
    exact hnd
  · intro u hu
    obtain ⟨v, hv, hu2⟩ := List.mem_map.mp hu
    by_cases h1 : v.id = a.id
    · rw [mem_id_unique hnd hv hain h1, hfa] at hu2
      subst hu2
      obtain ⟨w1, w2, w3, w4⟩ := hwf a hain
      refine ⟨?_, ?_, ?_, ?_⟩
      · show a.adjacent ++ [b.id] = (assocUpdate a.weights b.id t).map Prod.fst
        rw [keys_assocUpdate_not_mem t hguard, w1]
      · show (a.adjacent ++ [b.id]).Nodup
        rw [List.nodup_append]
        refine ⟨w2, List.nodup_singleton _, ?_⟩
        intro k hk hk2
        rw [List.mem_singleton] at hk2
        exact hbA (hk2 ▸ hk)
      · show a.id ∉ a.adjacent ++ [b.id]
        rw [List.mem_append, List.mem_singleton]
        push_neg
        exact ⟨w3, hne⟩
      · intro j hj
        rw [show (aAdd a b.id t).adjacent = a.adjacent ++ [b.id] from rfl,
            List.mem_append, List.mem_singleton] at hj
        rcases hj with hj | hj
        · exact hclosureNew j (w4 j hj)
        · exact hclosureNew j ⟨b, hbin, hj.symm⟩
    · by_cases h2 : v.id = b.id
      · rw [mem_id_unique hnd hv hbin h2, hfb] at hu2
        subst hu2
        obtain ⟨w1, w2, w3, w4⟩ := hwf b hbin
        refine ⟨?_, ?_, ?_, ?_⟩
        · show b.adjacent ++ [a.id] = (assocUpdate b.weights a.id t).map Prod.fst
          rw [keys_assocUpdate_not_mem t haGB, w1]
        · show (b.adjacent ++ [a.id]).Nodup
          rw [List.nodup_append]
          refine ⟨w2, List.nodup_singleton _, ?_⟩
          intro k hk hk2
          rw [List.mem_singleton] at hk2
          exact haB (hk2 ▸ hk)
        · show b.id ∉ b.adjacent ++ [a.id]
          rw [List.mem_append, List.mem_singleton]
          push_neg
          exact ⟨w3, fun hh => hne hh.symm⟩
        · intro j hj
          rw [show (aAdd b a.id t).adjacent = b.adjacent ++ [a.id] from rfl,
              List.mem_append, List.mem_singleton] at hj
          rcases hj with hj | hj
          · exact hclosureNew j (w4 j hj)
          · exact hclosureNew j ⟨a, hain, hj.symm⟩
      · rw [hfo v h1 h2] at hu2
        subst hu2
        obtain ⟨w1, w2, w3, w4⟩ := hwf v hv
        exact ⟨w1, w2, w3, fun j hj => hclosureNew j (w4 j hj)⟩
  · intro u1 hu1 u2 hu2
    obtain ⟨v1, hv1, he1⟩ := List.mem_map.mp hu1
    obtain ⟨v2, hv2, he2⟩ := List.mem_map.mp hu2
    by_cases h1a : v1.id = a.id
    · rw [mem_id_unique hnd hv1 hain h1a, hfa] at he1
      subst he1
      by_cases h2a : v2.id = a.id
      · rw [mem_id_unique hnd hv2 hain h2a, hfa] at he2
        subst he2
        exact ⟨Iff.rfl, fun _ => rfl⟩
      · by_cases h2b : v2.id = b.id
        · rw [mem_id_unique hnd hv2 hbin h2b, hfb] at he2
          subst he2
          refine ⟨iff_of_true ?_ ?_, fun _ => ?_⟩
          · show (aAdd b a.id t).id ∈ a.adjacent ++ [b.id]
            exact List.mem_append_right _ (List.mem_singleton_self _)
          · show (aAdd a b.id t).id ∈ b.adjacent ++ [a.id]
            exact List.mem_append_right _ (List.mem_singleton_self _)
          · show assocLookup (assocUpdate a.weights b.id t) (aAdd b a.id t).id
              = assocLookup (assocUpdate b.weights a.id t) (aAdd a b.id t).id
            show assocLookup (assocUpdate a.weights b.id t) b.id
              = assocLookup (assocUpdate b.weights a.id t) a.id
            rw [assocLookup_update_self, assocLookup_update_self]
        · rw [hfo v2 h2a h2b] at he2
          subst he2
          have hold := hsym a hain v2 hv2
          have hmm : v2.id ∈ a.adjacent ++ [b.id] ↔ v2.id ∈ a.adjacent := by
            rw [List.mem_append, List.mem_singleton]
            exact or_iff_left h2b
          refine ⟨?_, ?_⟩
          · show v2.id ∈ a.adjacent ++ [b.id] ↔ (aAdd a b.id t).id ∈ v2.adjacent
            rw [hmm]
            exact hold.1
          · intro hmemu
            show assocLookup (assocUpdate a.weights b.id t) v2.id
              = assocLookup v2.weights (aAdd a b.id t).id
            rw [assocLookup_update_ne _ _ _ _ h2b]
            exact hold.2 (hmm.mp hmemu)
    · by_cases h1b : v1.id = b.id
      · rw [mem_id_unique hnd hv1 hbin h1b, hfb] at he1
        subst he1
        by_cases h2a : v2.id = a.id
        · rw [mem_id_unique hnd hv2 hain h2a, hfa] at he2
          subst he2
          refine ⟨iff_of_true ?_ ?_, fun _ => ?_⟩
          · show (aAdd a b.id t).id ∈ b.adjacent ++ [a.id]
            exact List.mem_append_right _ (List.mem_singleton_self _)
          · show (aAdd b a.id t).id ∈ a.adjacent ++ [b.id]
            exact List.mem_append_right _ (List.mem_singleton_self _)
          · show assocLookup (assocUpdate b.weights a.id t) (aAdd a b.id t).id
              = assocLookup (assocUpdate a.weights b.id t) (aAdd b a.id t).id
            show assocLookup (assocUpdate b.weights a.id t) a.id
              = assocLookup (assocUpdate a.weights b.id t) b.id
            rw [assocLookup_update_self, assocLookup_update_self]
        · by_cases h2b : v2.id = b.id
          · rw [mem_id_unique hnd hv2 hbin h2b, hfb] at he2
            subst he2
            exact ⟨Iff.rfl, fun _ => rfl⟩
          · rw [hfo v2 h2a h2b] at he2
            subst he2
            have hold := hsym b hbin v2 hv2
            have hmm : v2.id ∈ b.adjacent ++ [a.id] ↔ v2.id ∈ b.adjacent := by
              rw [List.mem_append, List.mem_singleton]
              exact or_iff_left h2a
            refine ⟨?_, ?_⟩
            · show v2.id ∈ b.adjacent ++ [a.id] ↔ (aAdd b a.id t).id ∈ v2.adjacent
              rw [hmm]
              exact hold.1
            · intro hmemu
              show assocLookup (assocUpdate b.weights a.id t) v2.id
                = assocLookup v2.weights (aAdd b a.id t).id
              rw [assocLookup_update_ne _ _ _ _ h2a]
              exact hold.2 (hmm.mp hmemu)
      · rw [hfo v1 h1a h1b] at he1
        subst he1
        by_cases h2a : v2.id = a.id
        · rw [mem_id_unique hnd hv2 hain h2a, hfa] at he2
          subst he2
          have hold := hsym v1 hv1 a hain
          have hmm : v1.id ∈ a.adjacent ++ [b.id] ↔ v1.id ∈ a.adjacent := by
            rw [List.mem_append, List.mem_singleton]
            exact or_iff_left h1b
          refine ⟨?_, ?_⟩
          · show (aAdd a b.id t).id ∈ v1.adjacent ↔ v1.id ∈ a.adjacent ++ [b.id]
            rw [hmm]
            exact hold.1
          · intro hmemu
            show assocLookup v1.weights (aAdd a b.id t).id
              = assocLookup (assocUpdate a.weights b.id t) v1.id
            rw [assocLookup_update_ne _ _ _ _ h1b]
            exact hold.2 hmemu
        · by_cases h2b : v2.id = b.id
          · rw [mem_id_unique hnd hv2 hbin h2b, hfb] at he2
            subst he2
            have hold := hsym v1 hv1 b hbin
            have hmm : v1.id ∈ b.adjacent ++ [a.id] ↔ v1.id ∈ b.adjacent := by
              rw [List.mem_append, List.mem_singleton]
              exact or_iff_left h1a
            refine ⟨?_, ?_⟩
            · show (aAdd b a.id t).id ∈ v1.adjacent ↔ v1.id ∈ b.adjacent ++ [a.id]
              rw [hmm]
              exact hold.1
            · intro hmemu
              show assocLookup v1.weights (aAdd b a.id t).id
                = assocLookup (assocUpdate b.weights a.id t) v1.id
              rw [assocLookup_update_ne _ _ _ _ h1a]
              exact hold.2 hmemu
          · rw [hfo v2 h2a h2b] at he2
            subst he2
            exact hsym v1 hv1 v2 hv2

/-- The well-formedness bundle survives a symmetric edge deletion between
two distinct members. -/
theorem WInv_dScrub {w : List Vertex} {a b : Vertex}
    (hw : WInv w) (hain : a ∈ w) (hbin : b ∈ w) (hne : a.id ≠ b.id) :
    WInv (dScrub w a.id b.id) := by
  obtain ⟨hnd, hwf, hsym⟩ := hw
  have hidp : ∀ v : Vertex,
      ((fun v => if v.id = a.id then dRem v b.id
        else if v.id = b.id then dRem v a.id else v) v).id = v.id := by
    intro v
    show (if v.id = a.id then dRem v b.id
        else if v.id = b.id then dRem v a.id else v).id = v.id
    by_cases h1 : v.id = a.id
    · rw [if_pos h1]
      rfl
    · rw [if_neg h1]
      by_cases h2 : v.id = b.id
      · rw [if_pos h2]
        rfl
      · rw [if_neg h2]
  have hids : (dScrub w a.id b.id).map Vertex.id = w.map Vertex.id := by
    unfold dScrub
    rw [List.map_map]
    exact List.map_congr_left (fun v _ => hidp v)
  have hfa : (if a.id = a.id then dRem a b.id
      else if a.id = b.id then dRem a a.id else a) = dRem a b.id := by
    rw [if_pos rfl]
  have hfb : (if b.id = a.id then dRem b b.id
      else if b.id = b.id then dRem b a.id else b) = dRem b a.id := by
    rw [if_neg (fun h => hne h.symm), if_pos rfl]
  have hfo : ∀ v : Vertex, v.id ≠ a.id → v.id ≠ b.id →
      (if v.id = a.id then dRem v b.id
        else if v.id = b.id then dRem v a.id else v) = v := by
    intro v h1 h2
    rw [if_neg h1, if_neg h2]
  have hclosureNew : ∀ k : Int, (∃ c ∈ w, c.id = k) →
      ∃ c2 ∈ dScrub w a.id b.id, c2.id = k := by
    rintro k ⟨c, hc, hck⟩
    exact ⟨_, List.mem_map_of_mem _ hc, (hidp c).trans hck⟩
  have hWFd : ∀ (v : Vertex), v ∈ w → ∀ (k : Int), VertexWF (dScrub w a.id b.id) (dRem v k) := by
    intro v hv k
    obtain ⟨w1, w2, w3, w4⟩ := hwf v hv
    refine ⟨?_, ?_, ?_, ?_⟩
    · show v.adjacent.erase k = (assocDelete v.weights k).map Prod.fst
      rw [keys_assocDelete, w1]
    · exact w2.erase k
    · exact fun hmem => w3 (List.mem_of_mem_erase hmem)
    · intro j hj
      exact hclosureNew j (w4 j (List.mem_of_mem_erase hj))
  refine ⟨?_, ?_, ?_⟩
  · rw [hids]
    exact hnd
  · intro u hu
    obtain ⟨v, hv, hu2⟩ := List.mem_map.mp hu
    by_cases h1 : v.id = a.id
    · rw [mem_id_unique hnd hv hain h1, hfa] at hu2
      subst hu2
      exact hWFd a hain b.id
    · by_cases h2 : v.id = b.id
      · rw [mem_id_unique hnd hv hbin h2, hfb] at hu2
        subst hu2
        exact hWFd b hbin a.id
      · rw [hfo v h1 h2] at hu2
        subst hu2
        obtain ⟨w1, w2, w3, w4⟩ := hwf v hv
        exact ⟨w1, w2, w3, fun j hj => hclosureNew j (w4 j hj)⟩
  · intro u1 hu1 u2 hu2
    obtain ⟨v1, hv1, he1⟩ := List.mem_map.mp hu1
    obtain ⟨v2, hv2, he2⟩ := List.mem_map.mp hu2
    by_cases h1a : v1.id = a.id
    · rw [mem_id_unique hnd hv1 hain h1a, hfa] at he1
      subst he1
      by_cases h2a : v2.id = a.id
      · rw [mem_id_unique hnd hv2 hain h2a, hfa] at he2
        subst he2
        exact ⟨Iff.rfl, fun _ => rfl⟩
      · by_cases h2b : v2.id = b.id
        · rw [mem_id_unique hnd hv2 hbin h2b, hfb] at he2
          subst he2
          have hl : (dRem b a.id).id ∉ (dRem a b.id).adjacent := by
            show b.id ∉ a.adjacent.erase b.id
            intro hmem
            exact (((hwf a hain).2.1.mem_erase_iff).mp hmem).1 rfl
          have hr : (dRem a b.id).id ∉ (dRem b a.id).adjacent := by
            show a.id ∉ b.adjacent.erase a.id
            intro hmem
            exact (((hwf b hbin).2.1.mem_erase_iff).mp hmem).1 rfl
          exact ⟨iff_of_false hl hr, fun hmem => absurd hmem hl⟩
        · rw [hfo v2 h2a h2b] at he2
          subst he2
          have hold := hsym a hain v2 hv2
          have hmm : v2.id ∈ a.adjacent.erase b.id ↔ v2.id ∈ a.adjacent := by
            rw [(hwf a hain).2.1.mem_erase_iff]
            exact and_iff_right h2b
          refine ⟨?_, ?_⟩
          · show v2.id ∈ a.adjacent.erase b.id ↔ (dRem a b.id).id ∈ v2.adjacent
            rw [hmm]
            exact hold.1
          · intro hmemu
            show assocLookup (assocDelete a.weights b.id) v2.id
              = assocLookup v2.weights (dRem a b.id).id
            rw [assocLookup_delete_ne _ _ _ h2b]
            exact hold.2 (hmm.mp hmemu)
    · by_cases h1b : v1.id = b.id
      · rw [mem_id_unique hnd hv1 hbin h1b, hfb] at he1
        subst he1
        by_cases h2a : v2.id = a.id
        · rw [mem_id_unique hnd hv2 hain h2a, hfa] at he2
          subst he2
          have hl : (dRem a b.id).id ∉ (dRem b a.id).adjacent := by
            show a.id ∉ b.adjacent.erase a.id
            intro hmem
            exact (((hwf b hbin).2.1.mem_erase_iff).mp hmem).1 rfl
          have hr : (dRem b a.id).id ∉ (dRem a b.id).adjacent := by
            show b.id ∉ a.adjacent.erase b.id
            intro hmem
            exact (((hwf a hain).2.1.mem_erase_iff).mp hmem).1 rfl
          exact ⟨iff_of_false hl hr, fun hmem => absurd hmem hl⟩
        · by_cases h2b : v2.id = b.id
          · rw [mem_id_unique hnd hv2 hbin h2b, hfb] at he2
            subst he2
            exact ⟨Iff.rfl, fun _ => rfl⟩
          · rw [hfo v2 h2a h2b] at he2
            subst he2
            have hold := hsym b hbin v2 hv2
            have hmm : v2.id ∈ b.adjacent.erase a.id ↔ v2.id ∈ b.adjacent := by
              rw [(hwf b hbin).2.1.mem_erase_iff]
              exact and_iff_right h2a
            refine ⟨?_, ?_⟩
            · show v2.id ∈ b.adjacent.erase a.id ↔ (dRem b a.id).id ∈ v2.adjacent
              rw [hmm]
              exact hold.1
            · intro hmemu
              show assocLookup (assocDelete b.weights a.id) v2.id
                = assocLookup v2.weights (dRem b a.id).id
              rw [assocLookup_delete_ne _ _ _ h2a]
              exact hold.2 (hmm.mp hmemu)
      · rw [hfo v1 h1a h1b] at he1
        subst he1
        by_cases h2a : v2.id = a.id
        · rw [mem_id_unique hnd hv2 hain h2a, hfa] at he2
          subst he2
          have hold := hsym v1 hv1 a hain
          have hmm : v1.id ∈ a.adjacent.erase b.id ↔ v1.id ∈ a.adjacent := by
            rw [(hwf a hain).2.1.mem_erase_iff]
            exact and_iff_right h1b
          refine ⟨?_, ?_⟩
          · show (dRem a b.id).id ∈ v1.adjacent ↔ v1.id ∈ a.adjacent.erase b.id
            rw [hmm]
            exact hold.1
          · intro hmemu
            show assocLookup v1.weights (dRem a b.id).id
              = assocLookup (assocDelete a.weights b.id) v1.id
            rw [assocLookup_delete_ne _ _ _ h1b]
            exact hold.2 hmemu
        · by_cases h2b : v2.id = b.id
          · rw [mem_id_unique hnd hv2 hbin h2b, hfb] at he2
            subst he2
            have hold := hsym v1 hv1 b hbin
            have hmm : v1.id ∈ b.adjacent.erase a.id ↔ v1.id ∈ b.adjacent := by
              rw [(hwf b hbin).2.1.mem_erase_iff]
              exact and_iff_right h1a
            refine ⟨?_, ?_⟩
            · show (dRem b a.id).id ∈ v1.adjacent ↔ v1.id ∈ b.adjacent.erase a.id
              rw [hmm]
              exact hold.1
            · intro hmemu
              show assocLookup v1.weights (dRem b a.id).id
                = assocLookup (assocDelete b.weights a.id) v1.id
              rw [assocLookup_delete_ne _ _ _ h1a]
              exact hold.2 hmemu
          · rw [hfo v2 h2a h2b] at he2
            subst he2
            exact hsym v1 hv1 v2 hv2

/-- `add_adjacent` leaves the collection untouched when an endpoint fails
to resolve. -/
theorem addAdjacentW_nofind {w : List Vertex} {i j t : Int}
    (h : findW w i = none ∨ findW w j = none) :
    addAdjacentW w i j t = w := by
  unfold addAdjacentW
  rcases h with h | h
  · rw [h]
  · rw [h]
    rcases h2 : findW w i with _ | a <;> rfl

/-- The deletion scrub keeps the id column. -/
theorem dScrub_map_id (w : List Vertex) (i j : Int) :
    (dScrub w i j).map Vertex.id = w.map Vertex.id := by
  unfold dScrub
  rw [List.map_map]
  apply List.map_congr_left
  intro v _
  show (if v.id = i then dRem v j else if v.id = j then dRem v i else v).id = v.id
  by_cases h1 : v.id = i
  · rw [if_pos h1]
    rfl
  · rw [if_neg h1]
    by_cases h2 : v.id = j
    · rw [if_pos h2]
      rfl
    · rw [if_neg h2]

/-- One branch of the deletion scrub keeps the id. -/
theorem dStep_id (i j : Int) (v : Vertex) :
    ((fun v => if v.id = i then dRem v j
      else if v.id = j then dRem v i else v) v).id = v.id := by
  show (if v.id = i then dRem v j else if v.id = j then dRem v i else v).id = v.id
  by_cases h1 : v.id = i
  · rw [if_pos h1]
    rfl
  · rw [if_neg h1]
    by_cases h2 : v.id = j
    · rw [if_pos h2]
      rfl
    · rw [if_neg h2]

/-- One branch of the deletion scrub only shrinks the adjacency list. -/
theorem dStep_adj_sub (i j : Int) (v : Vertex) {k : Int}
    (hk : k ∈ ((fun v => if v.id = i then dRem v j
      else if v.id = j then dRem v i else v) v).adjacent) : k ∈ v.adjacent := by
  have hk2 : k ∈ (if v.id = i then dRem v j
      else if v.id = j then dRem v i else v).adjacent := hk
  by_cases h1 : v.id = i
  · rw [if_pos h1] at hk2
    exact List.mem_of_mem_erase hk2
  · rw [if_neg h1] at hk2
    by_cases h2 : v.id = j
    · rw [if_pos h2] at hk2
      exact List.mem_of_mem_erase hk2
    · rw [if_neg h2] at hk2
      exact hk2

/-- Under the bundle, `delete_adjacent` never raises: it either declines
untouched or removes the live symmetric pair. -/
theorem deleteAdjacentW_cases {w : List Vertex} (hw : WInv w) (i j : Int) :
    deleteAdjacentW w i j = some (false, w) ∨
    ∃ a b, findW w i = some a ∧ findW w j = some b ∧ a.id ≠ b.id ∧
      b.id ∈ a.adjacent ∧ deleteAdjacentW w i j = some (true, dScrub w i j) := by
  rcases hfa : findW w i with _ | a
  · exact Or.inl (deleteAdjacentW_nofind (Or.inl hfa))
  rcases hfb : findW w j with _ | b
  · exact Or.inl (deleteAdjacentW_nofind (Or.inr hfb))
  by_cases hadj : b.id ∈ a.adjacent
  · have hain := (findW_some hfa).1
    have hbin := (findW_some hfb).1
    have hne : a.id ≠ b.id := by
      intro hh
      have hab : a = b := mem_id_unique hw.1 hain hbin hh
      exact (hw.2.1 a hain).2.2.1 (by rw [hh, hab]; exact hab ▸ hadj)
    have h4 : a.id ∈ b.adjacent := (hw.2.2 a hain b hbin).1.mp hadj
    refine Or.inr ⟨a, b, rfl, rfl, hne, hadj, ?_⟩
    exact deleteAdjacentW_char hw.1 hfa hfb hne hadj
      ((hw.2.1 a hain).1 ▸ hadj) ((hw.2.1 b hbin).1 ▸ h4) h4
  · exact Or.inl (deleteAdjacentW_noadj hfa hfb hadj)

/-- The bundle survives `add_adjacent`. -/
theorem WInv_addAdjacentW {w : List Vertex} (hw : WInv w) (i j t : Int) :
    WInv (addAdjacentW w i j t) := by
  rcases hfa : findW w i with _ | a
  · rw [addAdjacentW_nofind (Or.inl hfa)]
    exact hw
  rcases hfb : findW w j with _ | b
  · rw [addAdjacentW_nofind (Or.inr hfb)]
    exact hw
  by_cases hg : a.id = b.id ∨ b.id ∈ a.weights.map Prod.fst
  · rw [addAdjacentW_noop hfa hfb hg]
    exact hw
  · push_neg at hg
    rw [addAdjacentW_char hw.1 hfa hfb hg.1 hg.2]
    have h2 : WInv (aScrub w a.id b.id t) :=
      WInv_aScrub hw (findW_some hfa).1 (findW_some hfb).1 hg.1 hg.2
    rw [(findW_some hfa).2, (findW_some hfb).2] at h2
    exact h2

/-- The bundle survives `delete_adjacent`. -/
theorem WInv_deleteAdjacentW {w : List Vertex} {i j : Int} {r : Bool × List Vertex}
    (hw : WInv w) (hdel : deleteAdjacentW w i j = some r) : WInv r.2 := by
  rcases deleteAdjacentW_cases hw i j with heq | ⟨a, b, hfa, hfb, hne, hadj, heq⟩
  · rw [heq] at hdel
    cases hdel
    exact hw
  · rw [heq] at hdel
    cases hdel
    have h2 := WInv_dScrub hw (findW_some hfa).1 (findW_some hfb).1 hne
    rw [(findW_some hfa).2, (findW_some hfb).2] at h2
    exact h2

/-- The bundle survives `create_edge`. -/
theorem WInv_createEdge {g : Graph} (hw : WInv g.vertices) (i j t : Int) :
    WInv (createEdge g i j t).2.vertices := by
  unfold createEdge
  by_cases hc : containsVertex g i = false ∨ containsVertex g j = false
  · rw [if_pos hc]
    exact hw
  · rw [if_neg hc]
    exact WInv_addAdjacentW hw i j t

/-- The bundle survives `remove_edge`. -/
theorem WInv_removeEdge {g : Graph} {i j : Int} {r : Option Bool × Graph}
    (hw : WInv g.vertices) (hrem : removeEdge g i j = some r) : WInv r.2.vertices := by
  unfold removeEdge at hrem
  by_cases hc : containsVertex g i = false ∨ containsVertex g j = false
  · rw [if_pos hc] at hrem
    cases hrem
    exact hw
  · rw [if_neg hc] at hrem
    by_cases hadj : areAdjacent g i j = false
    · rw [if_pos hadj] at hrem
      cases hrem
      exact hw
    · rw [if_neg hadj] at hrem
      rcases hdel : deleteAdjacentW g.vertices i j with _ | r2
      · rw [hdel] at hrem
        cases hrem
      · rw [hdel] at hrem
        have h2 := WInv_deleteAdjacentW hw hdel
        rcases hkey : delMatchingKey i j g.weights with _ | ws
        · rw [hkey] at hrem
          cases hrem
          exact h2
        · rw [hkey] at hrem
          cases hrem
          exact h2

/-- Purging an edgeless vertex touches nothing. -/
theorem purgeAll_noop {w : List Vertex} {x : Int} (hw : WInv w) {a : Vertex}
    (hfa : findW w x = some a) (hempty : a.adjacent = []) :
    ∀ ps : List Int, purgeAll x ps w = some w := by
  intro ps
  induction ps with
  | nil => rfl
  | cons p rest ih =>
    have hstep : deleteAdjacentW w p x = some (false, w) := by
      rcases hfp : findW w p with _ | c
      · exact deleteAdjacentW_nofind (Or.inl hfp)
      · apply deleteAdjacentW_noadj hfp hfa
        intro hmem
        have hsymc := (hw.2.2 c (findW_some hfp).1 a (findW_some hfa).1).1
        have h2 : c.id ∈ a.adjacent := hsymc.mp hmem
        rw [hempty] at h2
        cases h2
    show (match deleteAdjacentW w p x with
          | none => none
          | some r => purgeAll x rest r.2) = some w
    rw [hstep]
    exact ih

/-- The purge loop of `remove_vertex` never raises under the bundle; it
keeps the bundle and the id column, never adds adjacencies, and leaves no
processed vertex (other than the victim) adjacent to the victim. -/
theorem purgeAll_spec {x : Int} (ps : List Int) (w : List Vertex) (hw : WInv w) :
    ∃ w2, purgeAll x ps w = some w2 ∧ WInv w2 ∧
      w2.map Vertex.id = w.map Vertex.id ∧
      (∀ u ∈ w2, ∀ k, k ∈ u.adjacent → ∃ v ∈ w, v.id = u.id ∧ k ∈ v.adjacent) ∧
      (∀ u ∈ w2, u.id ∈ ps → u.id ≠ x → x ∉ u.adjacent) := by
  induction ps generalizing w with
  | nil =>
    exact ⟨w, rfl, hw, rfl, fun u hu k hk => ⟨u, hu, rfl, hk⟩,
      fun u hu hp => absurd hp (List.not_mem_nil _)⟩
  | cons p rest ih =>
    have hshow : ∀ (r : Bool × List Vertex), deleteAdjacentW w p x = some r →
        purgeAll x (p :: rest) w = purgeAll x rest r.2 := by
      intro r hr
      show (match deleteAdjacentW w p x with
            | none => none
            | some r => purgeAll x rest r.2) = purgeAll x rest r.2
      rw [hr]
    rcases hfp : findW w p with _ | c
    · -- p absent: no-op step
      obtain ⟨w2, hrec, hw2, hids2, hmono2, hclean2⟩ := ih w hw
      refine ⟨w2, ?_, hw2, hids2, hmono2, ?_⟩
      · rw [hshow (false, w) (deleteAdjacentW_nofind (Or.inl hfp))]
        exact hrec
      · intro u hu hpmem hux
        rcases List.mem_cons.mp hpmem with hup | hur
        · exfalso
          apply findW_none hfp
          rw [← hup, ← hids2]
          exact List.mem_map_of_mem Vertex.id hu
        · exact hclean2 u hu hur hux
    · rcases hfx : findW w x with _ | a
      · -- the victim id is absent: nothing is ever adjacent to it
        obtain ⟨w2, hrec, hw2, hids2, hmono2, hclean2⟩ := ih w hw
        refine ⟨w2, ?_, hw2, hids2, hmono2, ?_⟩
        · rw [hshow (false, w) (deleteAdjacentW_nofind (Or.inr hfx))]
          exact hrec
        · intro u hu hpmem hux hxmem
          obtain ⟨m, hm, hmid⟩ := (hw2.2.1 u hu).2.2.2 x hxmem
          apply findW_none hfx
          rw [← hmid, ← hids2]
          exact List.mem_map_of_mem Vertex.id hm
      · have hcin := (findW_some hfp).1
        have hcid := (findW_some hfp).2
        have hain := (findW_some hfx).1
        have haid := (findW_some hfx).2
        by_cases hadj : a.id ∈ c.adjacent
        · -- live edge between the position vertex and the victim: delete it
          have hnecx : c.id ≠ a.id := by
            intro hh
            exact (hw.2.1 c hcin).2.2.1 (by rw [hh]; exact hadj)
          have h4 : c.id ∈ a.adjacent := (hw.2.2 c hcin a hain).1.mp hadj
          have hstep : deleteAdjacentW w p x = some (true, dScrub w p x) :=
            deleteAdjacentW_char hw.1 hfp hfx hnecx hadj
              ((hw.2.1 c hcin).1 ▸ hadj) ((hw.2.1 a hain).1 ▸ h4) h4
          have hd : WInv (dScrub w p x) := by
            have h5 := WInv_dScrub hw hcin hain hnecx
            rw [hcid, haid] at h5
            exact h5
          obtain ⟨w2, hrec, hw2, hids2, hmono2, hclean2⟩ := ih (dScrub w p x) hd
          have hmonoStep : ∀ u ∈ w2, ∀ k, k ∈ u.adjacent →
              ∃ v ∈ w, v.id = u.id ∧ k ∈ v.adjacent := by
            intro u hu k hk
            obtain ⟨v2, hv2, hvid2, hk2⟩ := hmono2 u hu k hk
            obtain ⟨v, hv, hveq⟩ := List.mem_map.mp hv2
            refine ⟨v, hv, ?_, ?_⟩
            · rw [← hvid2, ← hveq]
              exact (dStep_id p x v).symm ▸ rfl
            · apply dStep_adj_sub p x v
              show k ∈ (if v.id = p then dRem v x else if v.id = x then dRem v p else v).adjacent
              rw [hveq]
              exact hk2
          refine ⟨w2, ?_, hw2, ?_, hmonoStep, ?_⟩
          · rw [hshow (true, dScrub w p x) hstep]
            exact hrec
          · rw [hids2, dScrub_map_id]
          · intro u hu hpmem hux hxmem
            rcases List.mem_cons.mp hpmem with hup | hur
            · obtain ⟨v2, hv2, hvid2, hx2⟩ := hmono2 u hu x hxmem
              obtain ⟨v, hv, hveq⟩ := List.mem_map.mp hv2
              have hvp : v.id = p := by
                have h6 : v2.id = v.id := by rw [← hveq]; exact dStep_id p x v
                rw [← h6, hvid2, hup]
              have hvc : v = c := mem_id_unique hw.1 hv hcin (hvp.trans hcid.symm)
              have hveval : v2 = dRem v x := by
                rw [← hveq]
                show (if v.id = p then dRem v x else if v.id = x then dRem v p else v)
                  = dRem v x
                rw [if_pos hvp]
              have hx3 : x ∈ v.adjacent.erase x := by
                rw [hveval] at hx2
                exact hx2
              have hnod : v.adjacent.Nodup := (hw.2.1 v hv).2.1
              exact (hnod.mem_erase_iff.mp hx3).1 rfl
            · exact hclean2 u hu hur hux hxmem
        · -- not adjacent: no-op step
          have hstep : deleteAdjacentW w p x = some (false, w) :=
            deleteAdjacentW_noadj hfp hfx hadj
          obtain ⟨w2, hrec, hw2, hids2, hmono2, hclean2⟩ := ih w hw
          refine ⟨w2, ?_, hw2, hids2, hmono2, ?_⟩
          · rw [hshow (false, w) hstep]
            exact hrec
          · intro u hu hpmem hux hxmem
            rcases List.mem_cons.mp hpmem with hup | hur
            · obtain ⟨v, hv, hvid, hx2⟩ := hmono2 u hu x hxmem
              have hvc : v = c := mem_id_unique hw.1 hv hcin (by rw [hvid, hup, ← hcid])
              apply hadj
              rw [haid, ← hvc]
              exact hx2
            · exact hclean2 u hu hur hux hxmem

/-- Removing a vertex nobody is adjacent to keeps the bundle. -/
theorem WInv_eraseById {w : List Vertex} {x : Int} (hw : WInv w)
    (hclean : ∀ u ∈ w, x ∉ u.adjacent) : WInv (eraseById w x) := by
  obtain ⟨hnd, hwf, hsym⟩ := hw
  refine ⟨?_, ?_, ?_⟩
  · rw [map_id_eraseById]
    exact hnd.erase x
  · intro u hu
    have hu2 := mem_eraseById_sub hu
    obtain ⟨w1, w2, w3, w4⟩ := hwf u hu2
    refine ⟨w1, w2, w3, ?_⟩
    intro j hj
    obtain ⟨c, hc, hcid⟩ := w4 j hj
    have hjx : j ≠ x := fun hh => hclean u hu2 (hh ▸ hj)
    exact ⟨c, mem_eraseById_of_ne hc (by rw [hcid]; exact hjx), hcid⟩
  · intro u1 hu1 u2 hu2
    exact hsym u1 (mem_eraseById_sub hu1) u2 (mem_eraseById_sub hu2)

/-- `remove_vertex` on an absent id returns False untouched. -/
theorem removeVertex_absent {g : Graph} {x : Int} (h : containsVertex g x = false) :
    removeVertex g x = some (false, g) := by
  unfold removeVertex
  rw [if_pos h]

/-- `remove_vertex` on a present id under the bundle: the purge succeeds,
the vertex leaves the collection, and no remaining vertex references it. -/
theorem removeVertex_spec {g : Graph} {x : Int} (hw : WInv g.vertices)
    (hc : containsVertex g x = true) :
    ∃ w2, purgeAll x (g.vertices.map Vertex.id) g.vertices = some w2 ∧
      removeVertex g x
        = some (true, { vertices := eraseById w2 x, weights := g.weights }) ∧
      WInv (eraseById w2 x) ∧
      (eraseById w2 x).map Vertex.id = (g.vertices.map Vertex.id).erase x ∧
      (∀ u ∈ eraseById w2 x, x ∉ u.adjacent ∧ x ∉ u.weights.map Prod.fst) := by
  obtain ⟨w2, hpurge, hw2, hids2, hmono2, hclean2⟩ :=
    purgeAll_spec (g.vertices.map Vertex.id) g.vertices hw
  have hcleanAll : ∀ u ∈ w2, x ∉ u.adjacent := by
    intro u hu
    by_cases hux : u.id = x
    · intro hmem
      exact (hw2.2.1 u hu).2.2.1 (by rw [hux]; exact hmem)
    · apply hclean2 u hu ?_ hux
      rw [← hids2]
      exact List.mem_map_of_mem Vertex.id hu
  have herase := WInv_eraseById hw2 hcleanAll
  refine ⟨w2, hpurge, ?_, herase, ?_, ?_⟩
  · unfold removeVertex
    rw [if_neg (by simp [hc])]
    rw [hpurge]
  · rw [map_id_eraseById, hids2]
  · intro u hu
    have hu2 := mem_eraseById_sub hu
    have hadj := hcleanAll u hu2
    refine ⟨hadj, ?_⟩
    rw [← (hw2.2.1 u hu2).1]
    exact hadj

/-- The bundle survives `remove_vertex`. -/
theorem WInv_removeVertex {g : Graph} {x : Int} {r : Bool × Graph}
    (hw : WInv g.vertices) (hrem : removeVertex g x = some r) : WInv r.2.vertices := by
  cases hcc : containsVertex g x with
  | false =>
    rw [removeVertex_absent hcc] at hrem
    cases hrem
    exact hw
  | true =>
    obtain ⟨w2, hpurge, hrem2, herase, hids, hcl⟩ := removeVertex_spec hw hcc
    rw [hrem2] at hrem
    cases hrem
    exact herase

/-- C7: `remove_vertex` returns False when the given id is not present;
otherwise (for a graph satisfying the spec's well-formedness bundle) it
purges every adjacency and weight reference to the removed vertex from
every remaining vertex, removes the vertex from the collection, returns
True, and `contains_vertex` is false for it afterward. -/
theorem c7_remove_vertex (g : Graph) (x : Int) :
    (containsVertex g x = false → removeVertex g x = some (false, g)) ∧
    (WInv g.vertices → containsVertex g x = true →
      ∃ g2, removeVertex g x = some (true, g2) ∧
        containsVertex g2 x = false ∧
        g2.vertices.map Vertex.id = (g.vertices.map Vertex.id).erase x ∧
        ∀ u ∈ g2.vertices, x ∉ u.adjacent ∧ x ∉ u.weights.map Prod.fst) := by
  constructor
  · exact removeVertex_absent
  · intro hw hc
    obtain ⟨w2, hpurge, hrem, herase, hids, hcl⟩ := removeVertex_spec hw hc
    refine ⟨_, hrem, ?_, hids, hcl⟩
    have hnotin : x ∉ (eraseById w2 x).map Vertex.id := by
      rw [hids]
      exact fun hmem => ((hw.1.mem_erase_iff).mp hmem).1 rfl
    cases hccase : containsVertex { vertices := eraseById w2 x, weights := g.weights } x with
    | false => rfl
    | true =>
      exfalso
      obtain ⟨a2, ha2, hid2⟩ := (contains_iff _ x).mp hccase
      have hmm : a2.id ∈ (eraseById w2 x).map Vertex.id :=
        List.mem_map_of_mem Vertex.id ha2
      rw [hid2] at hmm
      exact hnotin hmm

/-- Witness for C7 on the concrete one-edge graph. -/
theorem c7_witness :
    WInv gEdge.vertices ∧ containsVertex gEdge 1 = true ∧
    ∃ g2, removeVertex gEdge 1 = some (true, g2) ∧
      containsVertex g2 1 = false ∧
      g2.vertices.map Vertex.id = (gEdge.vertices.map Vertex.id).erase 1 ∧
      ∀ u ∈ g2.vertices, 1 ∉ u.adjacent ∧ 1 ∉ u.weights.map Prod.fst :=
  ⟨by unfold WInv VertexWF SymW; decide, rfl,
   (c7_remove_vertex gEdge 1).2 (by unfold WInv VertexWF SymW; decide) rfl⟩

/-- Every graph reachable by the public operations (with distinct-id fresh
batches) satisfies the well-formedness bundle. -/
theorem ReachSym_WInv : ∀ g : Graph, ReachSym g → WInv g.vertices := by
  intro g h
  induction h with
  | init => exact WInv_nil
  | addV g vs g2 hR hfresh hnd hok ih =>
    obtain ⟨hg2, hdisj⟩ := addVertices_ok_decomp hok
    subst hg2
    exact WInv_append ih hfresh hnd hdisj
  | addAdj g i j t hR hci hcj ih => exact WInv_addAdjacentW ih i j t
  | delAdj g i j r hR hci hcj hdel ih => exact WInv_deleteAdjacentW ih hdel
  | createE g i j t hR ih => exact WInv_createEdge ih i j t
  | removeE g i j r hR hrem ih => exact WInv_removeEdge ih hrem
  | removeV g x r hR hrem ih => exact WInv_removeVertex ih hrem

/-- C5 (amended): for every graph reachable by the public mutation
operations — with `add_vertices` batches of constructor-fresh vertices
whose ids are pairwise distinct, since the source never compares batch
members against each other — the symmetry invariant holds after every
mutation: A lists B as adjacent iff B lists A, with the same stored
weight. -/
theorem c5_symmetry_reachable (g : Graph) (h : ReachSym g) : SymW g.vertices :=
  (ReachSym_WInv g h).2.2

/-- C5 counterexample: one `add_vertices` batch carrying two id-1 vertices
is accepted, and `create_edge(1, 2, 5)` then wires only the second id-1
vertex to vertex 2, so vertex 2 lists id 1 as adjacent with weight 5 while
the first id-1 vertex lists nothing — the symmetry invariant fails on a
graph reachable by the public mutation operations. -/
theorem c5_counterexample :
    addVertices graphInit
        [Arg.vx (mkVertex 0 0 0 1), Arg.vx (mkVertex 0 0 0 1), Arg.vx (mkVertex 0 0 0 2)]
      = Except.ok gDup
    ∧ createEdge gDup 1 2 5 = (true, gDupEdge)
    ∧ ¬ SymW gDupEdge.vertices := by
  refine ⟨rfl, rfl, ?_⟩
  unfold SymW
  decide

/-- Witness for the amended C5 on a concretely reachable graph. -/
theorem c5_witness : SymW gEdge.vertices := by
  have h1 : ReachSym gTwo :=
    ReachSym.addV graphInit [mkVertex 0 0 0 1, mkVertex 0 0 0 2] gTwo ReachSym.init
      (by decide) (by decide) rfl
  have h2 : ReachSym gEdge := ReachSym.createE gTwo 1 2 5 h1
  exact c5_symmetry_reachable gEdge h2

/-- A true `are_adjacent` resolves both endpoints, the first listing the
second. -/
theorem areAdjacent_true {g : Graph} {i j : Int} (h : areAdjacent g i j = true) :
    ∃ a b, findW g.vertices i = some a ∧ findW g.vertices j = some b ∧
      b.id ∈ a.adjacent := by
  unfold areAdjacent at h
  by_cases hc : containsVertex g i = false ∨ containsVertex g j = false
  · rw [if_pos hc] at h
    cases h
  · rw [if_neg hc] at h
    rcases hfa : findW g.vertices i with _ | a
    · rw [hfa] at h
      dsimp only at h
      cases h
    · rcases hfb : findW g.vertices j with _ | b
      · rw [hfa, hfb] at h
        dsimp only at h
        cases h
      · rw [hfa, hfb] at h
        dsimp only at h
        exact ⟨a, b, rfl, rfl, of_decide_eq_true h⟩

/-- A false `are_adjacent` with both endpoints resolved means the first
does not list the second. -/
theorem areAdjacent_false {g : Graph} {i j : Int} {a b : Vertex}
    (h : areAdjacent g i j = false)
    (hci : containsVertex g i = true) (hcj : containsVertex g j = true)
    (hfa : findW g.vertices i = some a) (hfb : findW g.vertices j = some b) :
    b.id ∉ a.adjacent := by
  unfold areAdjacent at h
  rw [if_neg (by simp [hci, hcj]), hfa, hfb] at h
  dsimp only at h
  exact of_decide_eq_false h

/-- When the index scan falls through, no key contains both ids. -/
theorem delMatchingKey_none {i j : Int} {l : List ((Int × Int) × Int)}
    (h : delMatchingKey i j l = none) :
    ∀ e ∈ l, ¬((e.1.1 = i ∨ e.1.2 = i) ∧ (e.1.1 = j ∨ e.1.2 = j)) := by
  induction l with
  | nil => intro e he; cases he
  | cons q rest ih =>
    intro e he
    by_cases hq : (q.1.1 = i ∨ q.1.2 = i) ∧ (q.1.1 = j ∨ q.1.2 = j)
    · rw [show delMatchingKey i j (q :: rest) = some rest from by
          simp [delMatchingKey, hq]] at h
      cases h
    · have hrec : delMatchingKey i j rest = none := by
        rcases h2 : delMatchingKey i j rest with _ | rest2
        · rfl
        · rw [show delMatchingKey i j (q :: rest) = some (q :: rest2) from by
              rw [show delMatchingKey i j (q :: rest)
                    = if (q.1.1 = i ∨ q.1.2 = i) ∧ (q.1.1 = j ∨ q.1.2 = j) then some rest
                      else match delMatchingKey i j rest with
                        | none => none
                        | some rest2 => some (q :: rest2) from rfl,
                  if_neg hq, h2]] at h
          cases h
      rcases List.mem_cons.mp he with he2 | he2
      · exact he2 ▸ hq
      · exact ih hrec e he2

/-- A successful index scan splits the list at the first key containing
both ids. -/
theorem delMatchingKey_decomp {i j : Int} :
    ∀ {l l2 : List ((Int × Int) × Int)}, delMatchingKey i j l = some l2 →
    ∃ l1 e l3, l = l1 ++ e :: l3 ∧ l2 = l1 ++ l3 ∧
      ((e.1.1 = i ∨ e.1.2 = i) ∧ (e.1.1 = j ∨ e.1.2 = j)) ∧
      ∀ e2 ∈ l1, ¬((e2.1.1 = i ∨ e2.1.2 = i) ∧ (e2.1.1 = j ∨ e2.1.2 = j)) := by
  intro l
  induction l with
  | nil => intro l2 h; cases h
  | cons q rest ih =>
    intro l2 h
    by_cases hq : (q.1.1 = i ∨ q.1.2 = i) ∧ (q.1.1 = j ∨ q.1.2 = j)
    · rw [show delMatchingKey i j (q :: rest) = some rest from by
          simp [delMatchingKey, hq]] at h
      exact ⟨[], q, rest, rfl, (Option.some.inj h).symm, hq, fun e2 he2 => absurd he2 (List.not_mem_nil _)⟩
    · rw [show delMatchingKey i j (q :: rest)
            = if (q.1.1 = i ∨ q.1.2 = i) ∧ (q.1.1 = j ∨ q.1.2 = j) then some rest
              else match delMatchingKey i j rest with
                | none => none
                | some rest2 => some (q :: rest2) from rfl,
          if_neg hq] at h
      rcases h2 : delMatchingKey i j rest with _ | rest2
      · rw [h2] at h
        cases h
      · rw [h2] at h
        obtain ⟨l1, e, l3, hl, hl2, he, hall⟩ := ih h2
        refine ⟨q :: l1, e, l3, by rw [hl]; rfl, ?_, he, ?_⟩
        · rw [← Option.some.inj h, hl2]
          rfl
        · intro e2 he2
          rcases List.mem_cons.mp he2 with he3 | he3
          · exact he3 ▸ hq
          · exact hall e2 he3

/-- A key containing two distinct ids is one of the two orderings. -/
theorem match_sameIdPair {i j : Int} (hij : i ≠ j) {k : Int × Int}
    (h : (k.1 = i ∨ k.2 = i) ∧ (k.1 = j ∨ k.2 = j)) :
    (k.1 = i ∧ k.2 = j) ∨ (k.1 = j ∧ k.2 = i) := by
  rcases h with ⟨h1 | h1, h2 | h2⟩
  · exact absurd (h1.symm.trans h2) hij
  · exact Or.inl ⟨h1, h2⟩
  · exact Or.inr ⟨h2, h1⟩
  · exact absurd (h1.symm.trans h2) hij

/-- One branch of the insertion scrub keeps the id. -/
theorem aStep_id (i j t : Int) (v : Vertex) :
    ((fun v => if v.id = i then aAdd v j t
      else if v.id = j then aAdd v i t else v) v).id = v.id := by
  show (if v.id = i then aAdd v j t else if v.id = j then aAdd v i t else v).id = v.id
  by_cases h1 : v.id = i
  · rw [if_pos h1]
    rfl
  · rw [if_neg h1]
    by_cases h2 : v.id = j
    · rw [if_pos h2]
      rfl
    · rw [if_neg h2]

/-- The insertion scrub keeps the id column. -/
theorem aScrub_map_id (w : List Vertex) (i j t : Int) :
    (aScrub w i j t).map Vertex.id = w.map Vertex.id := by
  unfold aScrub
  rw [List.map_map]
  exact List.map_congr_left (fun v _ => aStep_id i j t v)

/-- One branch of the insertion scrub keeps untouched adjacency
memberships and weight lookups. -/
theorem aScrubFun_pres (i j t : Int) (p : Vertex) (q : Int)
    (hq1 : ¬(p.id = i ∧ q = j)) (hq2 : ¬(p.id = j ∧ q = i)) :
    (q ∈ ((fun v => if v.id = i then aAdd v j t
        else if v.id = j then aAdd v i t else v) p).adjacent ↔ q ∈ p.adjacent) ∧
    assocLookup ((fun v => if v.id = i then aAdd v j t
        else if v.id = j then aAdd v i t else v) p).weights q
      = assocLookup p.weights q := by
  show (q ∈ (if p.id = i then aAdd p j t
      else if p.id = j then aAdd p i t else p).adjacent ↔ q ∈ p.adjacent) ∧
    assocLookup (if p.id = i then aAdd p j t
      else if p.id = j then aAdd p i t else p).weights q = assocLookup p.weights q
  by_cases h1 : p.id = i
  · have hqb : q ≠ j := fun hh => hq1 ⟨h1, hh⟩
    rw [if_pos h1]
    constructor
    · show q ∈ p.adjacent ++ [j] ↔ q ∈ p.adjacent
      rw [List.mem_append, List.mem_singleton]
      exact or_iff_left hqb
    · exact assocLookup_update_ne _ _ _ _ hqb
  · rw [if_neg h1]
    by_cases h2 : p.id = j
    · have hqa : q ≠ i := fun hh => hq2 ⟨h2, hh⟩
      rw [if_pos h2]
      constructor
      · show q ∈ p.adjacent ++ [i] ↔ q ∈ p.adjacent
        rw [List.mem_append, List.mem_singleton]
        exact or_iff_left hqa
      · exact assocLookup_update_ne _ _ _ _ hqa
    · rw [if_neg h2]
      exact ⟨Iff.rfl, rfl⟩

/-- One branch of the deletion scrub keeps untouched adjacency memberships
and weight lookups. -/
theorem dScrubFun_pres (i j : Int) (p : Vertex) (q : Int)
    (hpnod : p.adjacent.Nodup)
    (hq1 : ¬(p.id = i ∧ q = j)) (hq2 : ¬(p.id = j ∧ q = i)) :
    (q ∈ ((fun v => if v.id = i then dRem v j
        else if v.id = j then dRem v i else v) p).adjacent ↔ q ∈ p.adjacent) ∧
    assocLookup ((fun v => if v.id = i then dRem v j
        else if v.id = j then dRem v i else v) p).weights q
      = assocLookup p.weights q := by
  show (q ∈ (if p.id = i then dRem p j
      else if p.id = j then dRem p i else p).adjacent ↔ q ∈ p.adjacent) ∧
    assocLookup (if p.id = i then dRem p j
      else if p.id = j then dRem p i else p).weights q = assocLookup p.weights q
  by_cases h1 : p.id = i
  · have hqb : q ≠ j := fun hh => hq1 ⟨h1, hh⟩
    rw [if_pos h1]
    constructor
    · show q ∈ p.adjacent.erase j ↔ q ∈ p.adjacent
      rw [hpnod.mem_erase_iff]
      exact and_iff_right hqb
    · exact assocLookup_delete_ne _ _ _ hqb
  · rw [if_neg h1]
    by_cases h2 : p.id = j
    · have hqa : q ≠ i := fun hh => hq2 ⟨h2, hh⟩
      rw [if_pos h2]
      constructor
      · show q ∈ p.adjacent.erase i ↔ q ∈ p.adjacent
        rw [hpnod.mem_erase_iff]
        exact and_iff_right hqa
      · exact assocLookup_delete_ne _ _ _ hqa
    · rw [if_neg h2]
      exact ⟨Iff.rfl, rfl⟩

/-- Every graph reachable by the amended operation sequences satisfies the
well-formedness bundle, the derived-index invariant, and key separation. -/
theorem ReachIdx_inv : ∀ g : Graph, ReachIdx g → WInv g.vertices ∧ IdxInv g ∧ IdxKeysSep g := by
  intro g hg
  induction hg with
  | init =>
    refine ⟨WInv_nil, ?_, List.Pairwise.nil⟩
    intro e he
    exact absurd he (List.not_mem_nil e)
  | addV g vs g2 hr hfresh hnd hok ih =>
    obtain ⟨hg2, hdisj⟩ := addVertices_ok_decomp hok
    subst hg2
    obtain ⟨ihW, ihI, ihS⟩ := ih
    refine ⟨WInv_append ihW hfresh hnd hdisj, ?_, ihS⟩
    intro e he
    obtain ⟨a, ha, b, hb, h1, h2, h3, h4, h5, h6⟩ := ihI e he
    exact ⟨a, List.mem_append_left _ ha, b, List.mem_append_left _ hb,
      h1, h2, h3, h4, h5, h6⟩
  | createE g i j t hr hij hnadj ih =>
    obtain ⟨ihW, ihI, ihS⟩ := ih
    by_cases hc : containsVertex g i = false ∨ containsVertex g j = false
    · have hce : createEdge g i j t = (false, g) := by
        unfold createEdge
        rw [if_pos hc]
      rw [hce]
      exact ⟨ihW, ihI, ihS⟩
    · push_neg at hc
      have hci : containsVertex g i = true := Bool.ne_false_iff.mp hc.1
      have hcj : containsVertex g j = true := Bool.ne_false_iff.mp hc.2
      obtain ⟨a, hfa, haid⟩ := contains_findW hci
      obtain ⟨b, hfb, hbid⟩ := contains_findW hcj
      have hainW : a ∈ g.vertices := (findW_some hfa).1
      have hbinW : b ∈ g.vertices := (findW_some hfb).1
      have hnadj2 : b.id ∉ a.adjacent := areAdjacent_false hnadj hci hcj hfa hfb
      have hne : a.id ≠ b.id := by rw [haid, hbid]; exact hij
      have hguard : b.id ∉ a.weights.map Prod.fst := by
        rw [← (ihW.2.1 a hainW).1]
        exact hnadj2
      have hce : createEdge g i j t
          = (true, { vertices := aScrub g.vertices i j t,
                     weights := assocUpdate g.weights (i, j) t }) := by
        unfold createEdge
        rw [if_neg (by simp [hci, hcj]), addAdjacentW_char ihW.1 hfa hfb hne hguard]
      rw [hce]
      refine ⟨?_, ?_, ?_⟩
      · show WInv (aScrub g.vertices i j t)
        rw [← haid, ← hbid]
        exact WInv_aScrub ihW hainW hbinW hne hguard
      · intro e he
        rcases assocUpdate_mem he with hold | hnew
        · obtain ⟨a2, ha2, b2, hb2, h1, h2, h3, h4, h5, h6⟩ := ihI e hold
          have hc1 : ¬(a2.id = i ∧ b2.id = j) := by
            rintro ⟨p1, p2⟩
            rw [← haid] at p1
            rw [← hbid] at p2
            rw [mem_id_unique ihW.1 ha2 hainW p1] at h3
            rw [p2] at h3
            exact hnadj2 h3
          have hc2 : ¬(a2.id = j ∧ b2.id = i) := by
            rintro ⟨p1, p2⟩
            rw [← hbid] at p1
            rw [← haid] at p2
            rw [mem_id_unique ihW.1 ha2 hbinW p1] at h3
            rw [p2] at h3
            exact hnadj2 ((ihW.2.2 a hainW b hbinW).1.mpr h3)
          have hc3 : ¬(b2.id = i ∧ a2.id = j) := fun hp => hc2 ⟨hp.2, hp.1⟩
          have hc4 : ¬(b2.id = j ∧ a2.id = i) := fun hp => hc1 ⟨hp.2, hp.1⟩
          have hpa := aScrubFun_pres i j t a2 b2.id hc1 hc2
          have hpb := aScrubFun_pres i j t b2 a2.id hc3 hc4
          refine ⟨(fun v => if v.id = i then aAdd v j t
              else if v.id = j then aAdd v i t else v) a2,
            List.mem_map_of_mem _ ha2,
            (fun v => if v.id = i then aAdd v j t
              else if v.id = j then aAdd v i t else v) b2,
            List.mem_map_of_mem _ hb2, ?_, ?_, ?_, ?_, ?_, ?_⟩
          · exact (aStep_id i j t a2).trans h1
          · exact (aStep_id i j t b2).trans h2
          · rw [aStep_id i j t b2]
            exact hpa.1.mpr h3
          · rw [aStep_id i j t a2]
            exact hpb.1.mpr h4
          · rw [aStep_id i j t b2, hpa.2]
            exact h5
          · rw [aStep_id i j t a2, hpb.2]
            exact h6
        · subst hnew
          have hbni : ¬ b.id = i := fun hh => hij (hh.symm.trans hbid)
          refine ⟨(fun v => if v.id = i then aAdd v j t
              else if v.id = j then aAdd v i t else v) a,
            List.mem_map_of_mem _ hainW,
            (fun v => if v.id = i then aAdd v j t
              else if v.id = j then aAdd v i t else v) b,
            List.mem_map_of_mem _ hbinW, ?_, ?_, ?_, ?_, ?_, ?_⟩
          · exact (aStep_id i j t a).trans haid
          · exact (aStep_id i j t b).trans hbid
          · rw [aStep_id i j t b]
            show b.id ∈ (if a.id = i then aAdd a j t
                else if a.id = j then aAdd a i t else a).adjacent
            rw [if_pos haid]
            show b.id ∈ a.adjacent ++ [j]
            rw [hbid]
            exact List.mem_append_right _ (List.mem_singleton.mpr rfl)
          · rw [aStep_id i j t a]
            show a.id ∈ (if b.id = i then aAdd b j t
                else if b.id = j then aAdd b i t else b).adjacent
            rw [if_neg hbni, if_pos hbid]
            show a.id ∈ b.adjacent ++ [i]
            rw [haid]
            exact List.mem_append_right _ (List.mem_singleton.mpr rfl)
          · rw [aStep_id i j t b]
            show assocLookup (if a.id = i then aAdd a j t
                else if a.id = j then aAdd a i t else a).weights b.id = some t
            rw [if_pos haid]
            show assocLookup (assocUpdate a.weights j t) b.id = some t
            rw [hbid]
            exact assocLookup_update_self _ _ _
          · rw [aStep_id i j t a]
            show assocLookup (if b.id = i then aAdd b j t
                else if b.id = j then aAdd b i t else b).weights a.id = some t
            rw [if_neg hbni, if_pos hbid]
            show assocLookup (assocUpdate b.weights i t) a.id = some t
            rw [haid]
            exact assocLookup_update_self _ _ _
      · show ((assocUpdate g.weights (i, j) t).map Prod.fst).Pairwise
            (fun k k2 => ¬ sameIdPair k k2)
        by_cases hk : (i, j) ∈ g.weights.map Prod.fst
        · rw [keys_assocUpdate_mem t hk]
          exact ihS
        · rw [keys_assocUpdate_not_mem t hk, List.pairwise_append]
          refine ⟨ihS,
            List.Pairwise.cons (fun b2 hb2 => absurd hb2 (List.not_mem_nil b2))
              List.Pairwise.nil, ?_⟩
          intro k hkmem k2 hk2
          rw [List.mem_singleton] at hk2
          subst hk2
          intro hsame
          obtain ⟨e, he, hek⟩ := List.mem_map.mp hkmem
          obtain ⟨a2, ha2, b2, hb2, h1, h2, h3, h4, h5, h6⟩ := ihI e he
          rcases hsame with ⟨p1, p2⟩ | ⟨p1, p2⟩
          · have ha2a : a2.id = a.id := by rw [h1, hek, p1, haid]
            have hb2b : b2.id = b.id := by rw [h2, hek, p2, hbid]
            rw [mem_id_unique ihW.1 ha2 hainW ha2a, hb2b] at h3
            exact hnadj2 h3
          · have ha2b : a2.id = b.id := by rw [h1, hek, p1, hbid]
            have hb2a : b2.id = a.id := by rw [h2, hek, p2, haid]
            rw [mem_id_unique ihW.1 ha2 hbinW ha2b, hb2a] at h3
            exact hnadj2 ((ihW.2.2 a hainW b hbinW).1.mpr h3)
  | removeE g i j r hr hrem ih =>
    obtain ⟨ihW, ihI, ihS⟩ := ih
    by_cases hc : containsVertex g i = false ∨ containsVertex g j = false
    · rw [show removeEdge g i j = some (some false, g) from by
          unfold removeEdge; rw [if_pos hc]] at hrem
      have h2 : (some false, g) = r := Option.some.inj hrem
      subst h2
      exact ⟨ihW, ihI, ihS⟩
    · push_neg at hc
      have hci : containsVertex g i = true := Bool.ne_false_iff.mp hc.1
      have hcj : containsVertex g j = true := Bool.ne_false_iff.mp hc.2
      by_cases hadj : areAdjacent g i j = false
      · rw [show removeEdge g i j = some (some false, g) from by
            unfold removeEdge; rw [if_neg (by simp [hci, hcj]), if_pos hadj]] at hrem
        have h2 : (some false, g) = r := Option.some.inj hrem
        subst h2
        exact ⟨ihW, ihI, ihS⟩
      · have hadj2 : areAdjacent g i j = true := Bool.ne_false_iff.mp hadj
        obtain ⟨a, b, hfa, hfb, hmemBA⟩ := areAdjacent_true hadj2
        have hainW : a ∈ g.vertices := (findW_some hfa).1
        have hbinW : b ∈ g.vertices := (findW_some hfb).1
        have haid : a.id = i := (findW_some hfa).2
        have hbid : b.id = j := (findW_some hfb).2
        have hne : a.id ≠ b.id := by
          intro hh
          exact (ihW.2.1 a hainW).2.2.1 (hh.symm ▸ hmemBA)
        have hij2 : i ≠ j := by rw [← haid, ← hbid]; exact hne
        have hmemAB : a.id ∈ b.adjacent := (ihW.2.2 a hainW b hbinW).1.mp hmemBA
        have hw2 : b.id ∈ a.weights.map Prod.fst := by
          rw [← (ihW.2.1 a hainW).1]
          exact hmemBA
        have hw3 : a.id ∈ b.weights.map Prod.fst := by
          rw [← (ihW.2.1 b hbinW).1]
          exact hmemAB
        have hdel := deleteAdjacentW_char ihW.1 hfa hfb hne hmemBA hw2 hw3 hmemAB
        rcases hdk : delMatchingKey i j g.weights with _ | ws
        · rw [show removeEdge g i j
              = some (none, { vertices := dScrub g.vertices i j,
                              weights := g.weights }) from by
            unfold removeEdge
            rw [if_neg (by simp [hci, hcj]), if_neg (by simp [hadj2]), hdel]
            dsimp only
            rw [hdk]] at hrem
          have h2 := Option.some.inj hrem
          subst h2
          refine ⟨?_, ?_, ihS⟩
          · show WInv (dScrub g.vertices i j)
            rw [← haid, ← hbid]
            exact WInv_dScrub ihW hainW hbinW hne
          · intro e he
            obtain ⟨a2, ha2, b2, hb2, h1, h2, h3, h4, h5, h6⟩ := ihI e he
            have hnm := delMatchingKey_none hdk e he
            have hc1 : ¬(a2.id = i ∧ b2.id = j) := by
              rintro ⟨p1, p2⟩
              exact hnm ⟨Or.inl (h1.symm.trans p1), Or.inr (h2.symm.trans p2)⟩
            have hc2 : ¬(a2.id = j ∧ b2.id = i) := by
              rintro ⟨p1, p2⟩
              exact hnm ⟨Or.inr (h2.symm.trans p2), Or.inl (h1.symm.trans p1)⟩
            have hc3 : ¬(b2.id = i ∧ a2.id = j) := fun hp => hc2 ⟨hp.2, hp.1⟩
            have hc4 : ¬(b2.id = j ∧ a2.id = i) := fun hp => hc1 ⟨hp.2, hp.1⟩
            have hpa := dScrubFun_pres i j a2 b2.id (ihW.2.1 a2 ha2).2.1 hc1 hc2
            have hpb := dScrubFun_pres i j b2 a2.id (ihW.2.1 b2 hb2).2.1 hc3 hc4
            refine ⟨(fun v => if v.id = i then dRem v j
                else if v.id = j then dRem v i else v) a2,
              List.mem_map_of_mem _ ha2,
              (fun v => if v.id = i then dRem v j
                else if v.id = j then dRem v i else v) b2,
              List.mem_map_of_mem _ hb2, ?_, ?_, ?_, ?_, ?_, ?_⟩
            · exact (dStep_id i j a2).trans h1
            · exact (dStep_id i j b2).trans h2
            · rw [dStep_id i j b2]
              exact hpa.1.mpr h3
            · rw [dStep_id i j a2]
              exact hpb.1.mpr h4
            · rw [dStep_id i j b2, hpa.2]
              exact h5
            · rw [dStep_id i j a2, hpb.2]
              exact h6
        · rw [show removeEdge g i j
              = some (some true, { vertices := dScrub g.vertices i j,
                                   weights := ws }) from by
            unfold removeEdge
            rw [if_neg (by simp [hci, hcj]), if_neg (by simp [hadj2]), hdel]
            dsimp only
            rw [hdk]] at hrem
          have h2 := Option.some.inj hrem
          subst h2
          obtain ⟨l1, e0, l3, hsplit, hws, hmatch, hpre⟩ := delMatchingKey_decomp hdk
          subst hws
          have hsepAll : ((l1 ++ e0 :: l3).map Prod.fst).Pairwise
              (fun k k2 => ¬ sameIdPair k k2) := by
            rw [← hsplit]
            exact ihS
          rw [List.map_append, List.pairwise_append] at hsepAll
          have hsepl3 : ∀ e2 ∈ l3, ¬ sameIdPair e0.1 e2.1 := by
            have h4 := List.pairwise_cons.mp hsepAll.2.1
            intro e2 he2
            exact h4.1 e2.1 (List.mem_map_of_mem _ he2)
          have hkeysep : ∀ e2 ∈ l1 ++ l3,
              ¬((e2.1.1 = i ∨ e2.1.2 = i) ∧ (e2.1.1 = j ∨ e2.1.2 = j)) := by
            intro e2 he2
            rcases List.mem_append.mp he2 with h | h
            · exact hpre e2 h
            · intro hm
              apply hsepl3 e2 h
              rcases match_sameIdPair hij2 hmatch with ⟨q1, q2⟩ | ⟨q1, q2⟩ <;>
                rcases match_sameIdPair hij2 hm with ⟨q3, q4⟩ | ⟨q3, q4⟩
              · exact Or.inl ⟨q1.trans q3.symm, q2.trans q4.symm⟩
              · exact Or.inr ⟨q1.trans q4.symm, q2.trans q3.symm⟩
              · exact Or.inr ⟨q1.trans q4.symm, q2.trans q3.symm⟩
              · exact Or.inl ⟨q1.trans q3.symm, q2.trans q4.symm⟩
          refine ⟨?_, ?_, ?_⟩
          · show WInv (dScrub g.vertices i j)
            rw [← haid, ← hbid]
            exact WInv_dScrub ihW hainW hbinW hne
          · intro e he
            have heg : e ∈ g.weights := by
              rw [hsplit]
              rcases List.mem_append.mp he with h | h
              · exact List.mem_append_left _ h
              · exact List.mem_append_right _ (List.mem_cons_of_mem e0 h)
            obtain ⟨a2, ha2, b2, hb2, h1, h2, h3, h4, h5, h6⟩ := ihI e heg
            have hnm := hkeysep e he
            have hc1 : ¬(a2.id = i ∧ b2.id = j) := by
              rintro ⟨p1, p2⟩
              exact hnm ⟨Or.inl (h1.symm.trans p1), Or.inr (h2.symm.trans p2)⟩
            have hc2 : ¬(a2.id = j ∧ b2.id = i) := by
              rintro ⟨p1, p2⟩
              exact hnm ⟨Or.inr (h2.symm.trans p2), Or.inl (h1.symm.trans p1)⟩
            have hc3 : ¬(b2.id = i ∧ a2.id = j) := fun hp => hc2 ⟨hp.2, hp.1⟩
            have hc4 : ¬(b2.id = j ∧ a2.id = i) := fun hp => hc1 ⟨hp.2, hp.1⟩
            have hpa := dScrubFun_pres i j a2 b2.id (ihW.2.1 a2 ha2).2.1 hc1 hc2
            have hpb := dScrubFun_pres i j b2 a2.id (ihW.2.1 b2 hb2).2.1 hc3 hc4
            refine ⟨(fun v => if v.id = i then dRem v j
                else if v.id = j then dRem v i else v) a2,
              List.mem_map_of_mem _ ha2,
              (fun v => if v.id = i then dRem v j
                else if v.id = j then dRem v i else v) b2,
              List.mem_map_of_mem _ hb2, ?_, ?_, ?_, ?_, ?_, ?_⟩
            · exact (dStep_id i j a2).trans h1
            · exact (dStep_id i j b2).trans h2
            · rw [dStep_id i j b2]
              exact hpa.1.mpr h3
            · rw [dStep_id i j a2]
              exact hpb.1.mpr h4
            · rw [dStep_id i j b2, hpa.2]
              exact h5
            · rw [dStep_id i j a2, hpb.2]
              exact h6
          · show ((l1 ++ l3).map Prod.fst).Pairwise (fun k k2 => ¬ sameIdPair k k2)
            rw [List.map_append, List.pairwise_append]
            refine ⟨hsepAll.1, (List.pairwise_cons.mp hsepAll.2.1).2, ?_⟩
            intro k hk k2 hk2
            exact hsepAll.2.2 k hk k2 (List.mem_cons_of_mem _ hk2)
  | removeV g x r hr hedg hrv ih =>
    obtain ⟨ihW, ihI, ihS⟩ := ih
    by_cases hc : containsVertex g x = false
    · rw [removeVertex_absent hc] at hrv
      have h2 : (false, g) = r := Option.some.inj hrv
      subst h2
      exact ⟨ihW, ihI, ihS⟩
    · have hcx : containsVertex g x = true := Bool.ne_false_iff.mp hc
      obtain ⟨a, hfa, haid⟩ := contains_findW hcx
      have hainW : a ∈ g.vertices := (findW_some hfa).1
      have hempty : a.adjacent = [] := hedg a hfa
      have hpurge := purgeAll_noop ihW hfa hempty (g.vertices.map Vertex.id)
      rw [show removeVertex g x
          = some (true, { vertices := eraseById g.vertices x,
                          weights := g.weights }) from by
        unfold removeVertex
        rw [if_neg (by simp [hcx]), hpurge]] at hrv
      have h2 := Option.some.inj hrv
      subst h2
      have hclean : ∀ u ∈ g.vertices, x ∉ u.adjacent := by
        intro u hu hmem
        rw [← haid] at hmem
        have h3 := (ihW.2.2 u hu a hainW).1.mp hmem
        rw [hempty] at h3
        cases h3
      refine ⟨WInv_eraseById ihW hclean, ?_, ihS⟩
      intro e he
      obtain ⟨a2, ha2, b2, hb2, h1, h2, h3, h4, h5, h6⟩ := ihI e he
      have ha2x : a2.id ≠ x := by
        intro hh
        rw [mem_id_unique ihW.1 ha2 hainW (hh.trans haid.symm)] at h3
        rw [hempty] at h3
        cases h3
      have hb2x : b2.id ≠ x := by
        intro hh
        rw [mem_id_unique ihW.1 hb2 hainW (hh.trans haid.symm)] at h4
        rw [hempty] at h4
        cases h4
      exact ⟨a2, mem_eraseById_of_ne ha2 ha2x, b2, mem_eraseById_of_ne hb2 hb2x,
        h1, h2, h3, h4, h5, h6⟩

/-- C3: for every graph reachable by the four public Graph operations --
with add_vertices batches of constructor-fresh, pairwise-distinct-id
vertices, create_edge applied only to distinct not-yet-adjacent pairs, and
remove_vertex applied only to vertices with no incident edges -- every
id-pair key of the derived weight index corresponds to a live symmetric
adjacency between two present vertices, and the stored weight equals the
per-vertex weight on both endpoints. -/
theorem c3_index_invariant (g : Graph) (h : ReachIdx g) : IdxInv g :=
  (ReachIdx_inv g h).2.1

/-- C3 counterexample to the unrestricted claim: build vertices 1 and 2,
create the edge (1,2) with weight 5, then remove vertex 1.  The removal
succeeds but `remove_vertex` never touches the `graph.weights` index, so
the key (1,2) survives pointing at a vanished vertex: the index invariant
fails on the resulting graph. -/
theorem c3_counterexample :
    addVertices graphInit [Arg.vx (mkVertex 0 0 0 1), Arg.vx (mkVertex 0 0 0 2)]
      = Except.ok gTwo ∧
    createEdge gTwo 1 2 5 = (true, gEdge) ∧
    removeVertex gEdge 1 = some (true, gStale) ∧
    ¬ IdxInv gStale := by
  refine ⟨rfl, rfl, rfl, ?_⟩
  unfold IdxInv
  decide

/-- C3 witness: the graph with vertices 1, 2 and the edge (1,2,5) is
reachable under the amended side conditions and its index is sound. -/
theorem c3_witness : IdxInv gEdge :=
  c3_index_invariant gEdge
    (ReachIdx.createE gTwo 1 2 5
      (ReachIdx.addV graphInit [mkVertex 0 0 0 1, mkVertex 0 0 0 2] gTwo
        ReachIdx.init (by decide) (by decide) rfl)
      (by decide) rfl)
